import Mathlib

/-!
Verification development for the junifer_release repository.

Shallow embedding of:
  * `junifer/preprocess/confounds.py` (`FMRIPrepConfoundRemover`):
    strategy processing, confound selection/derivation, spike regressor,
    adhoc-format validation;
  * `junifer/markers/utils.py` (`_ets`) and `junifer/markers/ets_rss.py`
    (`RSSETSMarker.compute`);
  * `junifer/markers/temporal_snr/temporal_snr_spheres.py`
    (`TemporalSNRSpheres.__init__`);
  * `junifer/storage/utils.py` (`process_meta`) — this module is not part of
    the source tree (only its tests are), so it is modelled from the spec.

Conventions: pandas data frames with named float columns are embedded as
ordered association lists `List (String × List ℚ)` (column name ↦ column
values); Python exceptions (all `ValueError` here, raised directly or through
`raise_error`, whose default exception class is `ValueError`) are embedded as
`Except String`; machine floats are embedded as `ℚ` (no claim below depends
on rounding or NaN behaviour); `np.sqrt` inside the z-score is abstracted as
an explicit function argument since square roots leave `ℚ`.
-/

deriving instance DecidableEq for Except

/-! ## Confound remover: data model (`confounds.py`, lines 24-86) -/

/-- Valid confound component names (strategy keys). The constructor
`FMRIPrepConfoundRemover.__init__` rejects any other key, so a validated
strategy is a mapping out of exactly this type. -/
inductive Component where
  | motion
  | wm_csf
  | global_signal
deriving DecidableEq, Repr

/-- Valid confound types (strategy values), as validated by the constructor. -/
inductive Level where
  | basic
  | power2
  | derivatives
  | full
deriving DecidableEq, Repr

/-- `FMRIPREP_BASICS` (confounds.py lines 24-35). -/
def basics : Component → List String
  | .motion => ["trans_x", "trans_y", "trans_z", "rot_x", "rot_y", "rot_z"]
  | .wm_csf => ["csf", "white_matter"]
  | .global_signal => ["global_signal"]

/-- Component list in the source dictionaries' iteration order. -/
def allComponents : List Component :=
  [Component.motion, Component.wm_csf, Component.global_signal]

/-- `FMRIPREP_VALID_NAMES` (confounds.py lines 76-86): basics, then power2,
then derivative1, then derivative1_power2 names, each in component order. -/
def FMRIPREP_VALID_NAMES : List String :=
  allComponents.flatMap basics
    ++ allComponents.flatMap (fun c => (basics c).map (· ++ "_power2"))
    ++ allComponents.flatMap (fun c => (basics c).map (· ++ "_derivative1"))
    ++ allComponents.flatMap
        (fun c => (basics c).map (· ++ "_derivative1_power2"))

/-- A pandas data frame of named float columns: ordered association list of
column name ↦ column values. -/
abbrev Df : Type := List (String × List ℚ)

/-- Column lookup, `df[name]` read access (None when the column is absent). -/
def lookupCol (c : String) : Df → Option (List ℚ)
  | [] => none
  | p :: d => if p.1 = c then some p.2 else lookupCol c d

/-- `df[name] = values`: replace the column in place if the name exists,
otherwise append it as the last column (pandas assignment semantics). -/
def setCol (d : Df) (c : String) (xs : List ℚ) : Df :=
  if c ∈ d.map Prod.fst then
    d.map (fun p => if p.1 = c then (c, xs) else p)
  else
    d ++ [(c, xs)]

/-! ## `_process_fmriprep_spec` (confounds.py lines 280-362) -/

/-- The basic confounds of family `c` missing from the available columns. -/
def missingBasics (c : Component) (av : List String) : List String :=
  (basics c).filter (fun x => x ∉ av)

/-- The names appended to `to_select` for one strategy item, in the source's
append order: basics; then the power2 names (for power2/full); then, for
derivatives/full, per basic column the derivative1 name followed (for full)
by the derivative1_power2 name. -/
def familySelect (c : Component) (lvl : Level) : List String :=
  basics c
    ++ (if lvl = .power2 ∨ lvl = .full then
          (basics c).map (· ++ "_power2")
        else [])
    ++ (if lvl = .derivatives ∨ lvl = .full then
          (basics c).flatMap (fun x =>
            [x ++ "_derivative1"]
              ++ (if lvl = .full then [x ++ "_derivative1_power2"] else []))
        else [])

/-- The `squares_to_compute` entries contributed by one strategy item
(destination column ↦ column to square), in insertion order: missing power2
names first, then missing derivative1_power2 names. -/
def familySquares (c : Component) (lvl : Level) (av : List String) :
    List (String × String) :=
  (if lvl = .power2 ∨ lvl = .full then
     (basics c).filterMap (fun x =>
       if (x ++ "_power2") ∈ av then none else some (x ++ "_power2", x))
   else [])
    ++ (if lvl = .full then
          (basics c).filterMap (fun x =>
            if (x ++ "_derivative1_power2") ∈ av then none
            else some (x ++ "_derivative1_power2", x ++ "_derivative1"))
        else [])

/-- The `derivatives_to_compute` entries contributed by one strategy item
(destination column ↦ column to differentiate). -/
def familyDerivs (c : Component) (lvl : Level) (av : List String) :
    List (String × String) :=
  if lvl = .derivatives ∨ lvl = .full then
    (basics c).filterMap (fun x =>
      if (x ++ "_derivative1") ∈ av then none
      else some (x ++ "_derivative1", x))
  else []

/-- The strategy loop of `_process_fmriprep_spec` (lines 320-351): for each
strategy item in order, fail if any basic confound of the family is missing,
else accumulate the selection and the missing squares/derivatives. -/
def processSpecAux :
    List (Component × Level) → List String →
    Except String (List String × List (String × String) × List (String × String))
  | [], _ => .ok ([], [], [])
  | (c, lvl) :: rest, av =>
    if ∀ x ∈ basics c, x ∈ av then do
      let (ts, sq, dv) ← processSpecAux rest av
      .ok (familySelect c lvl ++ ts, familySquares c lvl av ++ sq,
           familyDerivs c lvl av ++ dv)
    else
      .error ("Invalid confounds file. Missing basic confounds: "
        ++ String.intercalate ", " (missingBasics c av)
        ++ ". Check if this file is really an fmriprep confounds file. "
        ++ "You can also modify the confound removal strategy.")

/-- `FMRIPrepConfoundRemover._process_fmriprep_spec` (lines 280-362), over the
validated strategy, the optional spike threshold and the data frame's column
names. Returns `(to_select, squares_to_compute, derivatives_to_compute,
spike_name)`. -/
def process_fmriprep_spec (strategy : List (Component × Level))
    (spike : Option ℚ) (av : List String) :
    Except String
      (List String × List (String × String) × List (String × String) × String) := do
  let (ts, sq, dv) ← processSpecAux strategy av
  let spike_name := "framewise_displacement"
  match spike with
  | some _ =>
    if spike_name ∈ av then
      .ok (ts, sq, dv, spike_name)
    else
      .error ("Invalid confounds file. Missing framewise_displacement "
        ++ "(spike) confound. "
        ++ "Check if this file is really an fmriprep confounds file. "
        ++ "You can also deactivate spike (set spike = None).")
  | none => .ok (ts, sq, dv, spike_name)

/-! ## `_pick_confounds` (confounds.py lines 364-400) -/

/-- `np.append(np.diff(col), 0)` (line 384): first differences with a
trailing zero. -/
def computeDerivative (xs : List ℚ) : List ℚ :=
  (List.zipWith (fun a b => a - b) xs.tail xs) ++ [0]

/-- The spike regressor computation (lines 392-394):
`fd.loc[fd > spike] = 1` then `fd.loc[fd != 1] = 0`. -/
def spikeColumn (spike : ℚ) (fd : List ℚ) : List ℚ :=
  (fd.map (fun x => if spike < x then 1 else x)).map
    (fun x => if x ≠ 1 then 0 else x)

/-- One step of the derived-column loops (lines 383-388): read the source
column (`KeyError` if absent) and assign `g` of it to the destination. -/
def addColStep (g : List ℚ → List ℚ) (d : Df) (p : String × String) :
    Except String Df :=
  match lookupCol p.2 d with
  | some xs => .ok (setCol d p.1 (g xs))
  | none => .error ("KeyError: " ++ p.2)

/-- One step of the final selection `out_df[to_select]` (line 399). -/
def selectStep (d : Df) (c : String) : Except String (String × List ℚ) :=
  match lookupCol c d with
  | some xs => .ok (c, xs)
  | none => .error ("KeyError: " ++ c)

/-- The `BOLD_confounds` input record consumed by `_pick_confounds` and
`_validate_data`: the confound table, the optional `format` tag, and the
optional `mappings` entry whose optional inner value is the `fmriprep`
mapping (adhoc column name ↦ fmriprep column name). -/
structure ConfoundsInput where
  data : Df
  format : Option String
  mappings : Option (Option (List (String × String)))

/-- String lookup in an association list (Python dict access). -/
def lookupStr (c : String) : List (String × String) → Option String
  | [] => none
  | p :: m => if p.1 = c then some p.2 else lookupStr c m

/-- `FMRIPrepConfoundRemover._map_adhoc_to_fmriprep` (lines 252-278):
rename the data frame's columns through the mapping (names without a mapping
entry are kept). -/
def map_adhoc_to_fmriprep (mapping : List (String × String)) (df : Df) : Df :=
  df.map (fun p => ((lookupStr p.1 mapping).getD p.1, p.2))

/-- `FMRIPrepConfoundRemover._pick_confounds` (lines 364-400): optional adhoc
renaming, spec processing, derivative computation, square computation,
optional spike regressor, final column selection. -/
def pick_confounds (strategy : List (Component × Level)) (spike : Option ℚ)
    (input : ConfoundsInput) : Except String Df := do
  let df0 :=
    if input.format = some "adhoc" then
      map_adhoc_to_fmriprep ((input.mappings.getD none).getD []) input.data
    else input.data
  let (to_select, sq, dv, spike_name) ←
    process_fmriprep_spec strategy spike (df0.map Prod.fst)
  let df1 ← dv.foldlM (addColStep computeDerivative) df0
  let df2 ← sq.foldlM (addColStep (fun xs => xs.map (fun v => v ^ 2))) df1
  let (df3, sel) ← match spike with
    | some s =>
      match lookupCol spike_name df2 with
      | some fd =>
        Except.ok (setCol df2 "spike" (spikeColumn s fd), to_select ++ ["spike"])
      | none => Except.error ("KeyError: " ++ spike_name)
    | none => Except.ok (df2, to_select)
  sel.mapM (selectStep df3)

/-! ## `_validate_data`, confounds-format part (confounds.py lines 433-482)

The earlier checks of `_validate_data` (4-D niimg check, presence and type of
the confounds data frame, time-length match) are upstream of the format
handling embedded here and are orthogonal to every claim below. -/

/-- The Python expression `len(missing) is not None` (line 474): `len`
returns an `int`, which is never `None`; values that may be `None` are
embedded as `Option`, so the tested value is `some missing.length`. -/
def lenIsNotNone (missing : List String) : Bool :=
  (some missing.length).isSome

/-- `FMRIPrepConfoundRemover._validate_data`, format handling (lines
433-482): format tag must be present; for adhoc, the fmriprep mappings must
be present, have only valid fmriprep names as values, and — as line 474
actually tests — `len(missing) is not None`. -/
def validate_confounds_format (bc : ConfoundsInput) : Except String Unit :=
  match bc.format with
  | none =>
    .error "Confounds format must be specified in input[\"BOLD_confounds\"]"
  | some fmt =>
    if fmt = "adhoc" then
      match bc.mappings with
      | none =>
        .error ("When using adhoc format, you must specify "
          ++ "the variables names mappings in "
          ++ "input[\"BOLD_confounds\"][\"mappings\"]")
      | some none =>
        .error ("When using adhoc format, you must specify "
          ++ "the variables names mappings to fmriprep format in "
          ++ "input[\"BOLD_confounds\"][\"mappings\"][\"fmriprep\"]")
      | some (some m) =>
        let wrong_names :=
          (m.map Prod.snd).filter (fun x => x ∉ FMRIPREP_VALID_NAMES)
        if wrong_names.length > 0 then
          .error ("The following mapping values are not valid fmriprep "
            ++ "names: " ++ String.intercalate ", " wrong_names)
        else
          let missing :=
            (m.map Prod.fst).filter (fun x => x ∉ bc.data.map Prod.fst)
          if lenIsNotNone missing then
            .error ("Invalid confounds file. Missing columns: "
              ++ String.intercalate ", " missing
              ++ ". Check if this file matches the adhoc specification for "
              ++ "this dataset.")
          else .ok ()
    else if fmt = "fmriprep" then .ok ()
    else .error ("Invalid confounds format " ++ fmt)

/-! ## `TemporalSNRSpheres.__init__` (temporal_snr_spheres.py lines 44-62) -/

/-- The state stored by a successfully constructed `TemporalSNRSpheres`
(fields relevant to the radius check). -/
structure TemporalSNRSpheres where
  coords : String
  radius : Option ℚ

/-- `TemporalSNRSpheres.__init__`: store coords and radius, then raise
`ValueError` (via `raise_error`, whose default exception class is
`ValueError`) when `radius is None or radius <= 0`. -/
def mkTemporalSNRSpheres (coords : String) (radius : Option ℚ) :
    Except String TemporalSNRSpheres :=
  match radius with
  | none => .error "radius should be > 0: provided None"
  | some r =>
    if r ≤ 0 then
      .error ("radius should be > 0: provided " ++ toString r)
    else
      .ok { coords := coords, radius := some r }

/-! ## Edge time series: `_ets` (markers/utils.py lines 22-80) and
`RSSETSMarker.compute` (markers/ets_rss.py lines 110-160) -/

/-- A 2-D numpy array (time points x regions): the row list plus the second
shape component, with the rectangularity invariant. -/
structure NpMatrix where
  rows : List (List ℚ)
  cols : Nat
  wf : ∀ r ∈ rows, r.length = cols

/-- Column `j` of a matrix. -/
def colVals (m : NpMatrix) (j : Nat) : List ℚ :=
  m.rows.map (fun r => r.getD j 0)

/-- Arithmetic mean (numpy/scipy default). -/
def listMean (xs : List ℚ) : ℚ := xs.sum / xs.length

/-- Population variance (scipy.stats.zscore default `ddof=0`). -/
def listVar (xs : List ℚ) : ℚ :=
  ((xs.map (fun x => (x - listMean xs) ^ 2)).sum) / xs.length

/-- `scipy.stats.zscore(bold_ts)` (axis 0): per column, subtract the mean and
divide by the standard deviation. The square root inside the standard
deviation is irrational on `ℚ`, so it is taken as the explicit argument
`sqrtQ`; no claim below depends on the numeric z-score values. -/
def zscoreMat (sqrtQ : ℚ → ℚ) (m : NpMatrix) : NpMatrix where
  rows := m.rows.map (fun r =>
    (List.range m.cols).map (fun j =>
      (r.getD j 0 - listMean (colVals m j)) / sqrtQ (listVar (colVals m j))))
  cols := m.cols
  wf := by
    intro r hr
    obtain ⟨r0, _, rfl⟩ := List.mem_map.mp hr
    simp

/-- `np.tril_indices(n, k=-1)` as the row-major list of (row, column) index
pairs strictly below the diagonal. -/
def trilIndices (n : Nat) : List (Nat × Nat) :=
  (List.range n).flatMap (fun i => (List.range i).map (fun j => (i, j)))

/-- `_ets` (markers/utils.py lines 22-80): z-score each region's time series,
multiply the z-scored series of every lower-triangle index pair elementwise,
and (when region names are given) label each edge by joining the two names
with `~` in the `(u, v)` index order (`u` the row index, `v` the column
index, `u > v`). -/
def ets (sqrtQ : ℚ → ℚ) (bold : NpMatrix) (roiNames : Option (List String)) :
    Except String (List (List ℚ) × Option (List String)) :=
  let timeseries := zscoreMat sqrtQ bold
  let n_roi := timeseries.cols
  let uv := trilIndices n_roi
  let etsRows := timeseries.rows.map (fun r =>
    uv.map (fun p => r.getD p.1 0 * r.getD p.2 0))
  match roiNames with
  | none => .ok (etsRows, none)
  | some ns =>
    if ns.length ≠ n_roi then
      .error ("List of roi names does not correspond "
        ++ "to the number of ROIs in the timeseries!")
    else
      .ok (etsRows, some (uv.map (fun p =>
        ns.getD p.1 "" ++ "~" ++ ns.getD p.2 "")))

/-- The Python expression `edge_ts ** 2` in `RSSETSMarker.compute` (line
157), where `edge_ts` is the `(ets, edge_names)` TUPLE returned by `_ets`
(the code never unpacks it): `tuple ** int` raises a `TypeError` in Python,
whatever the tuple holds. -/
def pyTuplePow (_t : List (List ℚ) × Option (List String)) (_k : Nat) :
    Except String (List (List ℚ)) :=
  .error "TypeError: unsupported operand type(s) for pow: tuple and int"

/-- `RSSETSMarker.compute` (ets_rss.py lines 110-160) after the parcel
aggregation step: `edge_ts = _ets(out[data])` (binding the tuple), then
`out[data] = np.sum(edge_ts**2, 1) ** 0.5` and the column relabelling. -/
def rss_ets_compute (sqrtQ : ℚ → ℚ) (aggData : NpMatrix) :
    Except String (List ℚ × List String) := do
  let edge_ts ← ets sqrtQ aggData none
  let sq ← pyTuplePow edge_ts 2
  .ok (sq.map (fun row => sqrtQ row.sum), ["root_sum_of_squares_ets"])

/-! ## Claim C1 -/

/-- C1: the claim states that an adhoc confounds input whose mapping values
are all valid canonical fmriprep names and whose mapping keys are all present
among the confound table's columns takes the non-error path of
`_validate_data` (no 'Missing columns' ValueError). The code instead tests
`len(missing) is not None` (line 474), which is always true, so this fully
valid input raises the 'Missing columns' ValueError with an empty missing
list — contradicting the adjacent comment "Check that all the required
columns are present" and the error message's own content. This theorem
evaluates the embedded code at such a failing input. -/
theorem c1_valid_adhoc_still_raises_missing_columns :
    validate_confounds_format
        { data := [("var0", [0]), ("var1", [0])],
          format := some "adhoc",
          mappings := some (some [("var0", "csf"), ("var1", "white_matter")]) }
      = Except.error ("Invalid confounds file. Missing columns: "
          ++ ". Check if this file matches the adhoc specification for "
          ++ "this dataset.") := by
  rfl

/-! ## Claim C2 -/

/-- C2 counterexample: the claim says the spike column is 1 exactly where
framewise displacement exceeds the threshold and 0 everywhere else, for every
table and threshold. With threshold 2 and a framewise-displacement value of
exactly 1, the value does not exceed the threshold (1 > 2 is false), yet the
code's two-step masking (`fd.loc[fd > spike] = 1; fd.loc[fd != 1] = 0`)
leaves the value 1 in place, so the spike entry is 1 where the claim
requires 0. -/
theorem c2_spike_counterexample :
    spikeColumn 2 [1] = [1] ∧ ¬ ((2 : ℚ) < 1) := by
  constructor
  · rfl
  · norm_num

/-- Pointwise value of the spike column. -/
lemma spikeColumn_getD (spike : ℚ) :
    ∀ (fd : List ℚ) (i : Nat), i < fd.length →
      (spikeColumn spike fd).getD i 0 =
        if spike < fd.getD i 0 ∨ fd.getD i 0 = 1 then 1 else 0 := by
  intro fd
  induction fd with
  | nil => intro i hi; simp at hi
  | cons x rest ih =>
    intro i hi
    cases i with
    | zero =>
      by_cases hgt : spike < x
      · simp [spikeColumn, hgt]
      · by_cases hone : x = 1
        · simp [spikeColumn, hgt, hone]
        · simp [spikeColumn, hgt, hone]
    | succ j =>
      have hj : j < rest.length := by simpa using hi
      have := ih j hj
      simpa [spikeColumn] using this

/-- C2 amended: the appended spike column has one entry per framewise
displacement value, and each entry is 1 exactly where the framewise
displacement exceeds the threshold OR equals exactly 1 (an artifact of the
two-step masking), and 0 everywhere else. -/
theorem c2_spike_amended (spike : ℚ) (fd : List ℚ) :
    (spikeColumn spike fd).length = fd.length ∧
    ∀ i, i < fd.length →
      (spikeColumn spike fd).getD i 0 =
        if spike < fd.getD i 0 ∨ fd.getD i 0 = 1 then 1 else 0 := by
  exact ⟨by simp [spikeColumn], spikeColumn_getD spike fd⟩

/-- Witness for C2 amended at a concrete input: threshold 1/2, framewise
displacement `[0, 1, 3/4]`. -/
theorem c2_spike_amended_witness :
    (0 : Nat) < 3 ∧
    ((spikeColumn (1/2) [0, 1, 3/4]).length = ([0, 1, 3/4] : List ℚ).length ∧
    ∀ i, i < ([0, 1, 3/4] : List ℚ).length →
      (spikeColumn (1/2) [0, 1, 3/4]).getD i 0 =
        if (1/2 : ℚ) < ([0, 1, 3/4] : List ℚ).getD i 0 ∨
            ([0, 1, 3/4] : List ℚ).getD i 0 = 1 then 1 else 0) :=
  ⟨by decide, c2_spike_amended (1/2) [0, 1, 3/4]⟩

/-! ## Claim C7 -/

/-- C7: with a confound table whose columns are exactly `[csf,
white_matter]`, strategy `{wm_csf: full}` and spike threshold 0.2,
`_process_fmriprep_spec` raises the 'Missing framewise_displacement'
ValueError, and `_pick_confounds` propagates exactly that error — the
derived-column computations and the selection (which happen after the spec
processing) are never reached, for any column values. -/
theorem c7_missing_framewise_displacement (xs ys : List ℚ) :
    process_fmriprep_spec [(Component.wm_csf, Level.full)] (some (1/5))
        ["csf", "white_matter"]
      = Except.error ("Invalid confounds file. Missing framewise_displacement "
          ++ "(spike) confound. "
          ++ "Check if this file is really an fmriprep confounds file. "
          ++ "You can also deactivate spike (set spike = None).")
    ∧ pick_confounds [(Component.wm_csf, Level.full)] (some (1/5))
        { data := [("csf", xs), ("white_matter", ys)],
          format := some "fmriprep", mappings := none }
      = Except.error ("Invalid confounds file. Missing framewise_displacement "
          ++ "(spike) confound. "
          ++ "Check if this file is really an fmriprep confounds file. "
          ++ "You can also deactivate spike (set spike = None).") := by
  constructor
  · rfl
  · rfl

/-! ## Claim C8 -/

/-- Pointwise value of the `np.diff` part of `computeDerivative`. -/
lemma diffPart_getD :
    ∀ (xs : List ℚ) (i : Nat), i + 1 < xs.length →
      (List.zipWith (fun a b => a - b) xs.tail xs).getD i 0 =
        xs.getD (i + 1) 0 - xs.getD i 0 := by
  intro xs
  induction xs with
  | nil => intro i hi; simp at hi
  | cons x rest ih =>
    intro i hi
    cases rest with
    | nil => simp at hi
    | cons y t =>
      cases i with
      | zero => simp
      | succ j =>
        have hj : j + 1 < (y :: t).length := by simpa using hi
        have := ih j hj
        simpa using this

/-- C8: every missing derivative column is computed from its source column of
`n ≥ 1` rows as the first difference (entry `i` is `source[i+1] - source[i]`
for `i < n-1`) with a trailing zero as the last entry, so the derived column
has the same row count `n`. -/
theorem c8_derivative_diff_trailing_zero (xs : List ℚ) (h : 0 < xs.length) :
    (computeDerivative xs).length = xs.length ∧
    (∀ i, i + 1 < xs.length →
      (computeDerivative xs).getD i 0 = xs.getD (i + 1) 0 - xs.getD i 0) ∧
    (computeDerivative xs).getD (xs.length - 1) 0 = 0 := by
  have hzlen : (List.zipWith (fun a b => a - b) xs.tail xs).length
      = xs.length - 1 := by
    simp [List.length_zipWith]
  refine ⟨?_, ?_, ?_⟩
  · simp only [computeDerivative, List.length_append, hzlen]
    simp
    omega
  · intro i hi
    have hil : i < (List.zipWith (fun a b => a - b) xs.tail xs).length := by
      omega
    rw [computeDerivative, List.getD_append _ _ _ _ hil]
    exact diffPart_getD xs i hi
  · have hge : (List.zipWith (fun a b => a - b) xs.tail xs).length
        ≤ xs.length - 1 := le_of_eq hzlen
    rw [computeDerivative, List.getD_append_right _ _ _ _ hge, hzlen]
    simp

/-- Witness for C8 at a concrete input: `[1, 2, 4]` of 3 rows. -/
theorem c8_derivative_witness :
    (0 : Nat) < ([1, 2, 4] : List ℚ).length ∧
    ((computeDerivative [1, 2, 4]).length = ([1, 2, 4] : List ℚ).length ∧
    (∀ i, i + 1 < ([1, 2, 4] : List ℚ).length →
      (computeDerivative [1, 2, 4]).getD i 0 =
        ([1, 2, 4] : List ℚ).getD (i + 1) 0 - ([1, 2, 4] : List ℚ).getD i 0) ∧
    (computeDerivative [1, 2, 4]).getD (([1, 2, 4] : List ℚ).length - 1) 0 = 0) :=
  ⟨by decide, c8_derivative_diff_trailing_zero [1, 2, 4] (by decide)⟩

/-! ## Claim C10 -/

/-- C10: constructing `TemporalSNRSpheres` with `radius = None` raises a
ValueError at construction, exactly as a non-positive radius does, so every
successfully constructed instance has a radius strictly greater than 0 (and
the single-voxel no-radius extraction is unreachable through this class). -/
theorem c10_radius_validation :
    (∀ c, mkTemporalSNRSpheres c none
        = Except.error "radius should be > 0: provided None")
    ∧ (∀ c r, r ≤ 0 → ∃ msg, mkTemporalSNRSpheres c (some r) = Except.error msg)
    ∧ (∀ c ρ inst, mkTemporalSNRSpheres c ρ = Except.ok inst →
        ∃ r, inst.radius = some r ∧ 0 < r) := by
  refine ⟨fun c => rfl, fun c r hr => ?_, fun c ρ inst h => ?_⟩
  · exact ⟨"radius should be > 0: provided " ++ toString r,
      by simp [mkTemporalSNRSpheres, hr]⟩
  · match ρ with
    | none => simp [mkTemporalSNRSpheres] at h
    | some r =>
      by_cases hr : r ≤ 0
      · simp [mkTemporalSNRSpheres, hr] at h
      · refine ⟨r, ?_, not_le.mp hr⟩
        simp only [mkTemporalSNRSpheres, if_neg hr, Except.ok.injEq] at h
        rw [← h]

/-- Witness for C10 at concrete inputs: radius None, radius -1, radius 6. -/
theorem c10_radius_validation_witness :
    mkTemporalSNRSpheres "DMNBuckner" none
      = Except.error "radius should be > 0: provided None"
    ∧ ((-1 : ℚ) ≤ 0
        ∧ ∃ msg, mkTemporalSNRSpheres "DMNBuckner" (some (-1))
            = Except.error msg)
    ∧ (∃ r, ({ coords := "DMNBuckner", radius := some 6 } :
          TemporalSNRSpheres).radius = some r ∧ 0 < r) :=
  ⟨c10_radius_validation.1 "DMNBuckner",
   ⟨by norm_num,
    c10_radius_validation.2.1 "DMNBuckner" (-1) (by norm_num)⟩,
   c10_radius_validation.2.2 "DMNBuckner" (some 6)
     { coords := "DMNBuckner", radius := some 6 }
     (by norm_num [mkTemporalSNRSpheres])⟩

/-! ## Claim C3 -/

/-- C3: the claim states that `RSSETSMarker.compute` returns under `data` the
per-time-point root sum of squares over all edge time series. The code (line
155) binds the `(ets, edge_names)` tuple returned by `_ets` without
unpacking it and then evaluates `edge_ts ** 2` on the tuple (line 157),
which raises a `TypeError` for every input, so `compute` never returns a
result. This theorem evaluates the embedded compute flow: it errors on every
aggregated time series. -/
theorem c3_rss_ets_compute_raises_type_error
    (sqrtQ : ℚ → ℚ) (aggData : NpMatrix) :
    rss_ets_compute sqrtQ aggData
      = Except.error
          "TypeError: unsupported operand type(s) for pow: tuple and int" := by
  rfl

/-! ## Claim C5 -/

/-- `trilIndices` over `n+1` regions: the first `n` regions' pairs, then the
block of pairs with row index `n`. -/
lemma trilIndices_succ (n : Nat) :
    trilIndices (n + 1)
      = trilIndices n ++ (List.range n).map (fun j => (n, j)) := by
  simp [trilIndices, List.range_succ]

lemma length_trilIndices_succ (n : Nat) :
    (trilIndices (n + 1)).length = (trilIndices n).length + n := by
  rw [trilIndices_succ]
  simp

lemma two_mul_length_trilIndices (n : Nat) :
    2 * (trilIndices n).length = n * (n - 1) := by
  induction n with
  | zero => rfl
  | succ m ih =>
    rw [length_trilIndices_succ, Nat.mul_add, ih]
    cases m with
    | zero => rfl
    | succ k =>
      simp only [Nat.add_sub_cancel]
      ring

/-- The number of strict lower-triangle index pairs over `n` regions is
`n * (n-1) / 2`. -/
lemma length_trilIndices (n : Nat) :
    (trilIndices n).length = n * (n - 1) / 2 := by
  have h := two_mul_length_trilIndices n
  omega

lemma length_trilIndices_mono {m n : Nat} (h : m ≤ n) :
    (trilIndices m).length ≤ (trilIndices n).length := by
  induction n with
  | zero => simpa [Nat.le_zero.mp h]
  | succ k ih =>
    rcases Nat.lt_or_ge m (k + 1) with hlt | hge
    · exact le_trans (ih (Nat.lt_succ_iff.mp hlt))
        (by rw [length_trilIndices_succ]; omega)
    · have : m = k + 1 := le_antisymm h hge
      subst this
      exact le_refl _

/-- The pair `(j, i)` (with `i < j < n`) sits at position
`(trilIndices j).length + i` of `trilIndices n`. -/
lemma trilIndices_get (n : Nat) :
    ∀ i j, i < j → j < n →
      (trilIndices n).get? ((trilIndices j).length + i) = some (j, i) := by
  induction n with
  | zero => intro i j _ hj; omega
  | succ k ih =>
    intro i j hij hj
    rcases Nat.lt_or_ge j k with hjk | hjk
    · have hidx : (trilIndices j).length + i < (trilIndices k).length := by
        have h1 : (trilIndices j).length + i < (trilIndices (j + 1)).length := by
          rw [length_trilIndices_succ]; omega
        exact lt_of_lt_of_le h1 (length_trilIndices_mono hjk)
      rw [trilIndices_succ, List.get?_append hidx]
      exact ih i j hij hjk
    · have hjeq : j = k := by omega
      subst hjeq
      rw [trilIndices_succ, List.get?_append_right (by omega)]
      have : (trilIndices j).length + i - (trilIndices j).length = i := by omega
      rw [this, List.get?_map, List.get?_range hij]
      rfl

/-- C5 counterexample: the claim says the edge label for the unordered pair
`(i, j)` with `i < j` puts the lower-index region's name first
(`"<name_i>~<name_j>"`). With 2 regions named `A`, `B`, the code labels the
single edge `"B~A"` (tril index pair `(1, 0)` feeds `names[u]` with `u > v`
first), not `"A~B"` as claimed. The edge data is the single product of the
two z-scored columns, here 0. -/
theorem c5_label_counterexample :
    ets (fun q => q) ⟨[[1, 2]], 2, by decide⟩ (some ["A", "B"])
      = Except.ok ([[(0 : ℚ)]], some ["B~A"])
    ∧ "B~A" ≠ "A~B" := by
  refine ⟨?_, by decide⟩
  rw [ets]
  norm_num [zscoreMat, colVals, listMean, listVar, trilIndices,
    List.range_succ]
  decide

/-- C5 amended: for `R` named regions the edge list has `R*(R-1)/2` entries,
and the edge label for the unordered pair `(i, j)` with `i < j` is
`"<name_j>~<name_i>"` — the HIGHER-index region's name first, then `~`, then
the lower-index region's name — located at position `j*(j-1)/2 + i`. -/
theorem c5_edge_count_and_labels_amended
    (sqrtQ : ℚ → ℚ) (bold : NpMatrix) (ns : List String)
    (h : ns.length = bold.cols) :
    ∃ e en, ets sqrtQ bold (some ns) = Except.ok (e, some en)
      ∧ en.length = bold.cols * (bold.cols - 1) / 2
      ∧ ∀ i j, i < j → j < bold.cols →
          en.get? (j * (j - 1) / 2 + i)
            = some (ns.getD j "" ++ "~" ++ ns.getD i "") := by
  refine ⟨(zscoreMat sqrtQ bold).rows.map (fun r =>
      (trilIndices bold.cols).map (fun p => r.getD p.1 0 * r.getD p.2 0)),
    (trilIndices bold.cols).map (fun p =>
      ns.getD p.1 "" ++ "~" ++ ns.getD p.2 ""), ?_, ?_, ?_⟩
  · rw [ets]
    simp [h, zscoreMat]
  · rw [List.length_map, length_trilIndices]
  · intro i j hij hj
    rw [List.get?_map, ← length_trilIndices j,
      trilIndices_get bold.cols i j hij hj]
    rfl

/-- Witness for C5 amended at a concrete input: 3 regions named
`A`, `B`, `C`. -/
theorem c5_edge_count_and_labels_witness :
    (["A", "B", "C"].length
      = (⟨[[1, 2, 3]], 3, by decide⟩ : NpMatrix).cols) ∧
    ∃ e en, ets (fun q => q) ⟨[[1, 2, 3]], 3, by decide⟩ (some ["A", "B", "C"])
      = Except.ok (e, some en)
      ∧ en.length
        = (⟨[[1, 2, 3]], 3, by decide⟩ : NpMatrix).cols
            * ((⟨[[1, 2, 3]], 3, by decide⟩ : NpMatrix).cols - 1) / 2
      ∧ ∀ i j, i < j → j < (⟨[[1, 2, 3]], 3, by decide⟩ : NpMatrix).cols →
          en.get? (j * (j - 1) / 2 + i)
            = some (["A", "B", "C"].getD j "" ++ "~" ++ ["A", "B", "C"].getD i "") :=
  ⟨by decide, c5_edge_count_and_labels_amended (fun q => q)
    ⟨[[1, 2, 3]], 3, by decide⟩ ["A", "B", "C"] (by decide)⟩

/-! ## Claim C4: column-set machinery -/

/-- Spec-worded column set for one family ("the union of the basic, squared,
derivative, and squared-derivative columns implied by each family's level",
spec section 4.1/8). Stated from the spec's words, to be compared with the
source-derived `familySelect`/`pick_confounds`. -/
def specFamilyImplied (c : Component) (lvl : Level) : List String :=
  basics c
    ++ (if lvl = .power2 ∨ lvl = .full then
          (basics c).map (· ++ "_power2") else [])
    ++ (if lvl = .derivatives ∨ lvl = .full then
          (basics c).map (· ++ "_derivative1") else [])
    ++ (if lvl = .full then
          (basics c).map (· ++ "_derivative1_power2") else [])

/-- Spec-worded column set implied by a whole ConfoundSpec. -/
def specImpliedColumns (strategy : List (Component × Level)) : List String :=
  strategy.flatMap (fun p => specFamilyImplied p.1 p.2)

/-- `familySquares` with no filtering: what it produces when none of the
derived names are among the available columns. -/
def familySquaresFull (c : Component) (lvl : Level) : List (String × String) :=
  (if lvl = .power2 ∨ lvl = .full then
     (basics c).map (fun x => (x ++ "_power2", x))
   else [])
    ++ (if lvl = .full then
          (basics c).map (fun x =>
            (x ++ "_derivative1_power2", x ++ "_derivative1"))
        else [])

/-- `familyDerivs` with no filtering. -/
def familyDerivsFull (c : Component) (lvl : Level) : List (String × String) :=
  if lvl = .derivatives ∨ lvl = .full then
    (basics c).map (fun x => (x ++ "_derivative1", x))
  else []

lemma lookupCol_isSome_iff (c : String) :
    ∀ d : Df, (lookupCol c d).isSome ↔ c ∈ d.map Prod.fst := by
  intro d
  induction d with
  | nil => simp [lookupCol]
  | cons p rest ih =>
    by_cases hp : p.1 = c
    · simp [lookupCol, hp]
    · simp [lookupCol, hp, ih, Ne.symm hp]

lemma lookupCol_exists {c : String} {d : Df} (h : c ∈ d.map Prod.fst) :
    ∃ xs, lookupCol c d = some xs := by
  have := (lookupCol_isSome_iff c d).mpr h
  exact Option.isSome_iff_exists.mp this

lemma cols_setCol (d : Df) (c : String) (xs : List ℚ) :
    (setCol d c xs).map Prod.fst
      = if c ∈ d.map Prod.fst then d.map Prod.fst
        else d.map Prod.fst ++ [c] := by
  rw [setCol]
  split
  · rw [List.map_map]
    apply List.map_congr_left
    intro p _
    by_cases hp : p.1 = c
    · simp [hp]
    · simp [hp]
  · simp

lemma mem_cols_setCol (d : Df) (c a : String) (xs : List ℚ) :
    a ∈ (setCol d c xs).map Prod.fst ↔ a ∈ d.map Prod.fst ∨ a = c := by
  rw [cols_setCol]
  split
  · rename_i hmem
    constructor
    · exact fun h => Or.inl h
    · rintro (h | rfl)
      · exact h
      · exact hmem
  · simp

/-- The derived-column loops succeed when every source column is present, and
the resulting column set is the old one plus the destination names. -/
lemma foldlM_addColStep_ok (g : List ℚ → List ℚ) :
    ∀ (pairs : List (String × String)) (d : Df),
      (∀ p ∈ pairs, p.2 ∈ d.map Prod.fst) →
      ∃ d', pairs.foldlM (addColStep g) d = Except.ok d'
        ∧ ∀ a, a ∈ d'.map Prod.fst
            ↔ a ∈ d.map Prod.fst ∨ a ∈ pairs.map Prod.fst := by
  intro pairs
  induction pairs with
  | nil =>
    intro d _
    exact ⟨d, rfl, by simp⟩
  | cons p rest ih =>
    intro d hsrc
    obtain ⟨xs, hxs⟩ := lookupCol_exists (hsrc p (List.mem_cons_self p rest))
    have hstep : addColStep g d p = Except.ok (setCol d p.1 (g xs)) := by
      rw [addColStep, hxs]
    have hrest : ∀ q ∈ rest, q.2 ∈ (setCol d p.1 (g xs)).map Prod.fst := by
      intro q hq
      rw [mem_cols_setCol]
      exact Or.inl (hsrc q (List.mem_cons_of_mem p hq))
    obtain ⟨d', hfold, hiff⟩ := ih (setCol d p.1 (g xs)) hrest
    refine ⟨d', ?_, ?_⟩
    · rw [List.foldlM_cons, hstep]
      simpa using hfold
    · intro a
      rw [hiff a, mem_cols_setCol]
      simp only [List.map_cons, List.mem_cons]
      tauto

/-- The final selection `out_df[to_select]` succeeds when every selected
column is present, and returns the columns in the selection order. -/
lemma mapM_selectStep_ok :
    ∀ (sel : List String) (d : Df),
      (∀ c ∈ sel, c ∈ d.map Prod.fst) →
      ∃ out, sel.mapM (selectStep d) = Except.ok out
        ∧ out.map Prod.fst = sel := by
  intro sel
  induction sel with
  | nil =>
    intro d _
    exact ⟨[], rfl, rfl⟩
  | cons c rest ih =>
    intro d hsel
    obtain ⟨xs, hxs⟩ := lookupCol_exists (hsel c (List.mem_cons_self c rest))
    have hstep : selectStep d c = Except.ok (c, xs) := by
      rw [selectStep, hxs]
    obtain ⟨out, hmap, hcols⟩ :=
      ih d (fun a ha => hsel a (List.mem_cons_of_mem c ha))
    refine ⟨(c, xs) :: out, ?_, ?_⟩
    · rw [List.mapM_cons, hstep, hmap]
      rfl
    · simp [hcols]

/-- `processSpecAux` when every requested family's basics are available. -/
lemma processSpecAux_ok :
    ∀ (strategy : List (Component × Level)) (av : List String),
      (∀ p ∈ strategy, ∀ b ∈ basics p.1, b ∈ av) →
      processSpecAux strategy av
        = Except.ok (strategy.flatMap (fun p => familySelect p.1 p.2),
            strategy.flatMap (fun p => familySquares p.1 p.2 av),
            strategy.flatMap (fun p => familyDerivs p.1 p.2 av)) := by
  intro strategy
  induction strategy with
  | nil => intro av _; rfl
  | cons q rest ih =>
    intro av h
    obtain ⟨c, lvl⟩ := q
    have hq : ∀ x ∈ basics c, x ∈ av :=
      fun x hx => h (c, lvl) (List.mem_cons_self _ _) x hx
    rw [processSpecAux, if_pos hq,
      ih av (fun p hp => h p (List.mem_cons_of_mem _ hp))]
    rfl

/-- No basic confound name is another basic name with a derived suffix
appended (checked over all component pairs). -/
lemma basics_ne_suffixed :
    ∀ (c c' : Component), ∀ b ∈ basics c, ∀ b' ∈ basics c',
      b ++ "_power2" ≠ b' ∧ b ++ "_derivative1" ≠ b'
        ∧ b ++ "_derivative1_power2" ≠ b' := by
  intro c c'
  cases c <;> cases c' <;> decide

lemma filterMap_none_filtered {α β : Type} (f : α → β) (cond : α → Prop)
    [DecidablePred cond] :
    ∀ (l : List α), (∀ x ∈ l, ¬ cond x) →
      l.filterMap (fun x => if cond x then none else some (f x)) = l.map f := by
  intro l
  induction l with
  | nil => intro _; rfl
  | cons x rest ih =>
    intro h
    rw [List.filterMap_cons, List.map_cons,
      if_neg (h x (List.mem_cons_self x rest)),
      ih (fun a ha => h a (List.mem_cons_of_mem x ha))]

/-- When the available columns are all basic names, no derived name is
filtered out of `familySquares`. -/
lemma familySquares_eq_full (c : Component) (lvl : Level) (av : List String)
    (hav : ∀ a ∈ av, ∃ c', a ∈ basics c') :
    familySquares c lvl av = familySquaresFull c lvl := by
  have h1 : ∀ x ∈ basics c, (x ++ "_power2") ∉ av := by
    intro x hx hmem
    obtain ⟨c', hc'⟩ := hav _ hmem
    exact (basics_ne_suffixed c c' x hx _ hc').1 rfl
  have h2 : ∀ x ∈ basics c, (x ++ "_derivative1_power2") ∉ av := by
    intro x hx hmem
    obtain ⟨c', hc'⟩ := hav _ hmem
    exact (basics_ne_suffixed c c' x hx _ hc').2.2 rfl
  rw [familySquares, familySquaresFull]
  congr 1
  · split
    · exact filterMap_none_filtered _ _ _ h1
    · rfl
  · split
    · exact filterMap_none_filtered _ _ _ h2
    · rfl

/-- When the available columns are all basic names, no derivative name is
filtered out of `familyDerivs`. -/
lemma familyDerivs_eq_full (c : Component) (lvl : Level) (av : List String)
    (hav : ∀ a ∈ av, ∃ c', a ∈ basics c') :
    familyDerivs c lvl av = familyDerivsFull c lvl := by
  have h1 : ∀ x ∈ basics c, (x ++ "_derivative1") ∉ av := by
    intro x hx hmem
    obtain ⟨c', hc'⟩ := hav _ hmem
    exact (basics_ne_suffixed c c' x hx _ hc').2.1 rfl
  rw [familyDerivs, familyDerivsFull]
  split
  · exact filterMap_none_filtered _ _ _ h1
  · rfl

/-- Every selected name of a family is a basic name, a square destination,
or a derivative destination (checked per component and level). -/
lemma familySelect_cases :
    ∀ (c : Component) (lvl : Level), ∀ a ∈ familySelect c lvl,
      a ∈ basics c ∨ a ∈ (familySquaresFull c lvl).map Prod.fst
        ∨ a ∈ (familyDerivsFull c lvl).map Prod.fst := by
  intro c lvl
  cases c <;> cases lvl <;> decide

/-- Every square source is a basic name or a derivative destination. -/
lemma familySquaresFull_src :
    ∀ (c : Component) (lvl : Level), ∀ p ∈ familySquaresFull c lvl,
      p.2 ∈ basics c ∨ p.2 ∈ (familyDerivsFull c lvl).map Prod.fst := by
  intro c lvl
  cases c <;> cases lvl <;> decide

/-- Every derivative source is a basic name. -/
lemma familyDerivsFull_src :
    ∀ (c : Component) (lvl : Level), ∀ p ∈ familyDerivsFull c lvl,
      p.2 ∈ basics c := by
  intro c lvl
  cases c <;> cases lvl <;> decide

/-- Per family, the source selection and the spec-worded implied column set
agree as sets (checked per component and level). -/
lemma familySelect_toFinset :
    ∀ (c : Component) (lvl : Level),
      (familySelect c lvl).toFinset = (specFamilyImplied c lvl).toFinset := by
  intro c lvl
  cases c <;> cases lvl <;> decide

lemma flatMap_congr_mem {α β : Type} {f g : α → List β} :
    ∀ (l : List α), (∀ a ∈ l, f a = g a) → l.flatMap f = l.flatMap g := by
  intro l
  induction l with
  | nil => intro _; rfl
  | cons x rest ih =>
    intro h
    rw [List.flatMap_cons, List.flatMap_cons, h x (List.mem_cons_self x rest),
      ih (fun a ha => h a (List.mem_cons_of_mem x ha))]

lemma flatMap_toFinset_congr {α β : Type} [DecidableEq β] {f g : α → List β} :
    ∀ (l : List α), (∀ a ∈ l, (f a).toFinset = (g a).toFinset) →
      (l.flatMap f).toFinset = (l.flatMap g).toFinset := by
  intro l
  induction l with
  | nil => intro _; rfl
  | cons x rest ih =>
    intro h
    rw [List.flatMap_cons, List.flatMap_cons, List.toFinset_append,
      List.toFinset_append, h x (List.mem_cons_self x rest),
      ih (fun a ha => h a (List.mem_cons_of_mem x ha))]

lemma mem_map_fst_flatMap {α : Type} {f : α → List (String × String)}
    {l : List α} {a : String} :
    a ∈ (l.flatMap f).map Prod.fst ↔ ∃ p ∈ l, a ∈ (f p).map Prod.fst := by
  simp only [List.mem_map, List.mem_flatMap]
  constructor
  · rintro ⟨q, ⟨p, hp, hq⟩, rfl⟩
    exact ⟨p, hp, q, hq, rfl⟩
  · rintro ⟨p, hp, q, hq, rfl⟩
    exact ⟨q, ⟨p, hp, hq⟩, rfl⟩

lemma except_bind_ok {ε α β : Type} (a : α) (f : α → Except ε β) :
    (Except.ok a : Except ε α) >>= f = f a := rfl

/-- C4: for every valid ConfoundSpec (a mapping from components to levels)
and every confound table whose column set is exactly the basic columns of
the requested families, `_pick_confounds` succeeds and the column set of the
returned table equals exactly the union of the basic, squared, derivative,
and squared-derivative columns implied by each family's level. -/
theorem c4_pick_confounds_column_set
    (strategy : List (Component × Level)) (df : Df)
    (hcols : (df.map Prod.fst).toFinset
      = (strategy.flatMap (fun p => basics p.1)).toFinset) :
    ∃ out, pick_confounds strategy none
        { data := df, format := some "fmriprep", mappings := none }
      = Except.ok out
      ∧ (out.map Prod.fst).toFinset = (specImpliedColumns strategy).toFinset := by
  have hmem : ∀ a, a ∈ df.map Prod.fst
      ↔ a ∈ strategy.flatMap (fun p => basics p.1) := by
    intro a
    rw [← List.mem_toFinset, hcols, List.mem_toFinset]
  have hbasic_in : ∀ p ∈ strategy, ∀ b ∈ basics p.1, b ∈ df.map Prod.fst := by
    intro p hp b hb
    exact (hmem b).mpr (List.mem_flatMap.mpr ⟨p, hp, hb⟩)
  have hav : ∀ a ∈ df.map Prod.fst, ∃ c', a ∈ basics c' := by
    intro a ha
    obtain ⟨p, hp, hb⟩ := List.mem_flatMap.mp ((hmem a).mp ha)
    exact ⟨p.1, hb⟩
  have hsq_eq : strategy.flatMap (fun p => familySquares p.1 p.2 (df.map Prod.fst))
      = strategy.flatMap (fun p => familySquaresFull p.1 p.2) :=
    flatMap_congr_mem strategy
      (fun p _ => familySquares_eq_full p.1 p.2 _ hav)
  have hdv_eq : strategy.flatMap (fun p => familyDerivs p.1 p.2 (df.map Prod.fst))
      = strategy.flatMap (fun p => familyDerivsFull p.1 p.2) :=
    flatMap_congr_mem strategy
      (fun p _ => familyDerivs_eq_full p.1 p.2 _ hav)
  have hspec : processSpecAux strategy (df.map Prod.fst)
      = Except.ok (strategy.flatMap (fun p => familySelect p.1 p.2),
          strategy.flatMap (fun p => familySquaresFull p.1 p.2),
          strategy.flatMap (fun p => familyDerivsFull p.1 p.2)) := by
    rw [processSpecAux_ok strategy _ hbasic_in, hsq_eq, hdv_eq]
  have hdvsrc : ∀ p ∈ strategy.flatMap (fun p => familyDerivsFull p.1 p.2),
      p.2 ∈ df.map Prod.fst := by
    intro p hp
    obtain ⟨q, hq, hpq⟩ := List.mem_flatMap.mp hp
    exact hbasic_in q hq p.2 (familyDerivsFull_src q.1 q.2 p hpq)
  obtain ⟨df1, hdf1, hiff1⟩ :=
    foldlM_addColStep_ok computeDerivative
      (strategy.flatMap (fun p => familyDerivsFull p.1 p.2)) df hdvsrc
  have hsqsrc : ∀ p ∈ strategy.flatMap (fun p => familySquaresFull p.1 p.2),
      p.2 ∈ df1.map Prod.fst := by
    intro p hp
    obtain ⟨q, hq, hpq⟩ := List.mem_flatMap.mp hp
    rcases familySquaresFull_src q.1 q.2 p hpq with hb | hd
    · exact (hiff1 p.2).mpr (Or.inl (hbasic_in q hq p.2 hb))
    · exact (hiff1 p.2).mpr (Or.inr (mem_map_fst_flatMap.mpr ⟨q, hq, hd⟩))
  obtain ⟨df2, hdf2, hiff2⟩ :=
    foldlM_addColStep_ok (fun xs => xs.map (fun v => v ^ 2))
      (strategy.flatMap (fun p => familySquaresFull p.1 p.2)) df1 hsqsrc
  have hsel : ∀ c ∈ strategy.flatMap (fun p => familySelect p.1 p.2),
      c ∈ df2.map Prod.fst := by
    intro c hc
    obtain ⟨q, hq, hcq⟩ := List.mem_flatMap.mp hc
    rcases familySelect_cases q.1 q.2 c hcq with hb | hs | hd
    · exact (hiff2 c).mpr (Or.inl ((hiff1 c).mpr
        (Or.inl (hbasic_in q hq c hb))))
    · exact (hiff2 c).mpr (Or.inr (mem_map_fst_flatMap.mpr ⟨q, hq, hs⟩))
    · exact (hiff2 c).mpr (Or.inl ((hiff1 c).mpr
        (Or.inr (mem_map_fst_flatMap.mpr ⟨q, hq, hd⟩))))
  obtain ⟨out, hout, houtcols⟩ :=
    mapM_selectStep_ok (strategy.flatMap (fun p => familySelect p.1 p.2))
      df2 hsel
  have hpfs : process_fmriprep_spec strategy none (df.map Prod.fst)
      = Except.ok (strategy.flatMap (fun p => familySelect p.1 p.2),
          strategy.flatMap (fun p => familySquaresFull p.1 p.2),
          strategy.flatMap (fun p => familyDerivsFull p.1 p.2),
          "framewise_displacement") := by
    simp only [process_fmriprep_spec]
    rw [hspec]
    rfl
  refine ⟨out, ?_, ?_⟩
  · simp only [pick_confounds]
    rw [if_neg (by decide : ¬ ((some "fmriprep" : Option String) = some "adhoc"))]
    simp only [hpfs, except_bind_ok]
    simp only [hdf1, except_bind_ok]
    simp only [hdf2, except_bind_ok]
    exact hout
  · rw [houtcols, specImpliedColumns]
    exact flatMap_toFinset_congr strategy
      (fun p _ => familySelect_toFinset p.1 p.2)

/-- Witness for C4 at a concrete input: strategy `{wm_csf: full}` over a
table with exactly the columns `[csf, white_matter]`. -/
theorem c4_pick_confounds_witness :
    ((([("csf", [1, 2]), ("white_matter", [3, 4])] : Df).map Prod.fst).toFinset
      = (([(Component.wm_csf, Level.full)]).flatMap
          (fun p => basics p.1)).toFinset)
    ∧ ∃ out, pick_confounds [(Component.wm_csf, Level.full)] none
        { data := [("csf", [1, 2]), ("white_matter", [3, 4])],
          format := some "fmriprep", mappings := none } = Except.ok out
      ∧ (out.map Prod.fst).toFinset
        = (specImpliedColumns [(Component.wm_csf, Level.full)]).toFinset :=
  ⟨by decide, c4_pick_confounds_column_set [(Component.wm_csf, Level.full)]
    [("csf", [1, 2]), ("white_matter", [3, 4])] (by decide)⟩

/-! ## Metadata hashing (`junifer/storage/utils.py`, spec section 4.5)

The module `junifer/storage/utils.py` is not part of this source tree; only
its tests (`junifer/storage/tests/test_utils.py`) are. The definitions below
are therefore modelled from the spec: metadata values are JSON-like Python
values (strings, ints, lists/tuples, string-keyed dicts in insertion order);
the hash canonicalizes nested mappings by sorting keys recursively and is
value-sensitive, so the cryptographic digest of the canonical serialization
is modelled by the canonical form itself (an injective stand-in, as the spec
requires any value change to change the hash); dict keys are compared by
their character sequences (Python sorts str keys by code point). -/

/-- Modelled from the spec: a JSON-like Python metadata value — string, int,
sequence (list/tuple, hashed by value), or string-keyed mapping in insertion
order. -/
inductive MetaVal where
  | s (v : String)
  | i (v : Int)
  | seq (xs : List MetaVal)
  | dict (es : List (String × MetaVal))
deriving Repr

mutual
/-- A metadata value all of whose mappings have duplicate-free keys (the
image of a Python dict always satisfies this). -/
def wfMeta : MetaVal → Bool
  | .s _ => true
  | .i _ => true
  | .seq xs => wfList xs
  | .dict es => decide ((es.map Prod.fst).Nodup) && wfEntries es
/-- `wfMeta` over the elements of a sequence. -/
def wfList : List MetaVal → Bool
  | [] => true
  | x :: xs => wfMeta x && wfList xs
/-- `wfMeta` over the values of a mapping. -/
def wfEntries : List (String × MetaVal) → Bool
  | [] => true
  | (_, v) :: es => wfMeta v && wfEntries es
end

/-- Insert an entry into a key-sorted association list (keys compared as
character sequences). -/
def insertAssoc {β : Type} (p : String × β) :
    List (String × β) → List (String × β)
  | [] => [p]
  | q :: l => if p.1.data < q.1.data then p :: q :: l else q :: insertAssoc p l

/-- Insertion sort of an association list by key (the `sort_keys=True`
canonicalization of one mapping level). -/
def sortAssoc {β : Type} : List (String × β) → List (String × β)
  | [] => []
  | p :: l => insertAssoc p (sortAssoc l)

mutual
/-- Modelled from the spec: the canonical form of a metadata value — every
mapping sorted by key, recursively; sequences keep their order (hashed by
value). The spec's hash is this canonical form (see the section comment). -/
def canonical : MetaVal → MetaVal
  | .s v => .s v
  | .i v => .i v
  | .seq xs => .seq (canonicalList xs)
  | .dict es => .dict (sortAssoc (canonicalEntries es))
/-- `canonical` over the elements of a sequence. -/
def canonicalList : List MetaVal → List MetaVal
  | [] => []
  | x :: xs => canonical x :: canonicalList xs
/-- `canonical` over the values of a mapping. -/
def canonicalEntries : List (String × MetaVal) → List (String × MetaVal)
  | [] => []
  | (k, v) :: es => (k, canonical v) :: canonicalEntries es
end

mutual
/-- Decidable equality for metadata values. -/
def metaDecEq : (a b : MetaVal) → Decidable (a = b)
  | .s x, .s y =>
    match String.decEq x y with
    | isTrue h => isTrue (by rw [h])
    | isFalse h => isFalse (by intro hc; injection hc; contradiction)
  | .s _, .i _ => isFalse (by intro h; injection h)
  | .s _, .seq _ => isFalse (by intro h; injection h)
  | .s _, .dict _ => isFalse (by intro h; injection h)
  | .i _, .s _ => isFalse (by intro h; injection h)
  | .i x, .i y =>
    match Int.instDecidableEq x y with
    | isTrue h => isTrue (by rw [h])
    | isFalse h => isFalse (by intro hc; injection hc; contradiction)
  | .i _, .seq _ => isFalse (by intro h; injection h)
  | .i _, .dict _ => isFalse (by intro h; injection h)
  | .seq _, .s _ => isFalse (by intro h; injection h)
  | .seq _, .i _ => isFalse (by intro h; injection h)
  | .seq xs, .seq ys =>
    match metaListDecEq xs ys with
    | isTrue h => isTrue (by rw [h])
    | isFalse h => isFalse (by intro hc; injection hc; contradiction)
  | .seq _, .dict _ => isFalse (by intro h; injection h)
  | .dict _, .s _ => isFalse (by intro h; injection h)
  | .dict _, .i _ => isFalse (by intro h; injection h)
  | .dict _, .seq _ => isFalse (by intro h; injection h)
  | .dict es, .dict fs =>
    match metaEntriesDecEq es fs with
    | isTrue h => isTrue (by rw [h])
    | isFalse h => isFalse (by intro hc; injection hc; contradiction)
/-- Decidable equality for metadata value lists. -/
def metaListDecEq : (xs ys : List MetaVal) → Decidable (xs = ys)
  | [], [] => isTrue rfl
  | [], _ :: _ => isFalse (by intro h; injection h)
  | _ :: _, [] => isFalse (by intro h; injection h)
  | x :: xs, y :: ys =>
    match metaDecEq x y, metaListDecEq xs ys with
    | isTrue h1, isTrue h2 => isTrue (by rw [h1, h2])
    | isFalse h1, _ => isFalse (by intro hc; injection hc; contradiction)
    | _, isFalse h2 => isFalse (by intro hc; injection hc; contradiction)
/-- Decidable equality for mapping entry lists. -/
def metaEntriesDecEq : (es fs : List (String × MetaVal)) → Decidable (es = fs)
  | [], [] => isTrue rfl
  | [], _ :: _ => isFalse (by intro h; injection h)
  | _ :: _, [] => isFalse (by intro h; injection h)
  | (k, v) :: es, (k2, v2) :: fs =>
    match String.decEq k k2, metaDecEq v v2, metaEntriesDecEq es fs with
    | isTrue h1, isTrue h2, isTrue h3 => isTrue (by rw [h1, h2, h3])
    | isFalse h1, _, _ => isFalse (by
        intro hc
        injection hc with hp _
        exact h1 (congrArg Prod.fst hp))
    | _, isFalse h2, _ => isFalse (by
        intro hc
        injection hc with hp _
        exact h2 (congrArg Prod.snd hp))
    | _, _, isFalse h3 => isFalse (by
        intro hc
        injection hc with _ ht
        exact h3 ht)
end

instance : DecidableEq MetaVal := metaDecEq

/-- Key lookup in a metadata mapping (Python `dict` access / `in`). -/
def lookupMeta (k : String) : List (String × MetaVal) → Option MetaVal
  | [] => none
  | p :: es => if p.1 = k then some p.2 else lookupMeta k es

/-- `dict.pop(k)`: remove the entry with key `k`, keeping the order of the
others (under duplicate-free keys, filtering is removal of the one entry). -/
def eraseKeyMeta (k : String) (es : List (String × MetaVal)) :
    List (String × MetaVal) :=
  es.filter (fun p => p.1 ≠ k)

/-- `dict[k] = v`: replace in place if the key exists, else append. -/
def setKeyMeta (es : List (String × MetaVal)) (k : String) (v : MetaVal) :
    List (String × MetaVal) :=
  if k ∈ es.map Prod.fst then
    es.map (fun p => if p.1 = k then (k, v) else p)
  else
    es ++ [(k, v)]

/-- Modelled from the spec: `process_meta` (junifer/storage/utils.py, absent
from this source tree). Requires the `element` key (a mapping) and the
`dependencies` key; removes `element` from the metadata, adds
`_element_keys` (the ordered key names of the removed element mapping),
hashes the result (hash modelled as the canonical form), and returns the
hash, the processed metadata, and the element mapping. -/
def process_meta (meta : List (String × MetaVal)) :
    Except String (MetaVal × List (String × MetaVal) × MetaVal) :=
  match lookupMeta "element" meta with
  | none => .error "`meta` must have the key element"
  | some (.dict ees) =>
    if "dependencies" ∈ meta.map Prod.fst then
      let t_meta := setKeyMeta (eraseKeyMeta "element" meta) "_element_keys"
        (.seq (ees.map (fun q => MetaVal.s q.1)))
      .ok (canonical (.dict t_meta), t_meta, .dict ees)
    else .error "`meta` must have the key dependencies"
  | some _ => .error "`meta` element must be a mapping"

/-! ### Sorting lemmas for the canonicalization -/

lemma insertAssoc_perm {β : Type} (p : String × β) :
    ∀ l : List (String × β), List.Perm (insertAssoc p l) (p :: l) := by
  intro l
  induction l with
  | nil => exact List.Perm.refl _
  | cons q rest ih =>
    rw [insertAssoc]
    split
    · exact List.Perm.refl _
    · exact ((ih.cons q).trans (List.Perm.swap p q rest))

lemma sortAssoc_perm {β : Type} :
    ∀ l : List (String × β), List.Perm (sortAssoc l) l := by
  intro l
  induction l with
  | nil => exact List.Perm.refl _
  | cons p rest ih =>
    rw [sortAssoc]
    exact (insertAssoc_perm p (sortAssoc rest)).trans (ih.cons p)

lemma insertAssoc_sorted {β : Type} (p : String × β) :
    ∀ l : List (String × β),
      l.Pairwise (fun a b => a.1.data ≤ b.1.data) →
      (insertAssoc p l).Pairwise (fun a b => a.1.data ≤ b.1.data) := by
  intro l
  induction l with
  | nil => intro _; simp [insertAssoc]
  | cons q rest ih =>
    intro hs
    rw [List.pairwise_cons] at hs
    rw [insertAssoc]
    split
    · rename_i hlt
      rw [List.pairwise_cons]
      constructor
      · intro a ha
        rcases List.mem_cons.mp ha with rfl | ha
        · exact le_of_lt hlt
        · exact le_trans (le_of_lt hlt) (hs.1 a ha)
      · rw [List.pairwise_cons]
        exact hs
    · rename_i hnlt
      rw [List.pairwise_cons]
      constructor
      · intro a ha
        have := (insertAssoc_perm p rest).mem_iff.mp ha
        rcases List.mem_cons.mp this with rfl | ha2
        · exact le_of_not_lt hnlt
        · exact hs.1 a ha2
      · exact ih hs.2

lemma sortAssoc_sorted {β : Type} :
    ∀ l : List (String × β),
      (sortAssoc l).Pairwise (fun a b => a.1.data ≤ b.1.data) := by
  intro l
  induction l with
  | nil => simp [sortAssoc]
  | cons p rest ih => exact insertAssoc_sorted p (sortAssoc rest) ih

/-- Two permuted association lists with duplicate-free keys have the same
key-sorted form. -/
lemma string_data_inj (a b : String) (h : a.data = b.data) : a = b := by
  cases a
  cases b
  exact congrArg String.mk h

lemma sortAssoc_eq_of_perm {β : Type} (l1 l2 : List (String × β))
    (hperm : List.Perm l1 l2) (hnd : (l1.map Prod.fst).Nodup) :
    sortAssoc l1 = sortAssoc l2 := by
  haveI : IsAntisymm (String × β) (fun a b => a.1.data < b.1.data) :=
    ⟨fun a b h1 h2 => absurd h2 (lt_asymm h1)⟩
  have hp : List.Perm (sortAssoc l1) (sortAssoc l2) :=
    (sortAssoc_perm l1).trans (hperm.trans (sortAssoc_perm l2).symm)
  have hnd1 : ((sortAssoc l1).map Prod.fst).Nodup :=
    (((sortAssoc_perm l1).map Prod.fst).nodup_iff).mpr hnd
  have hnd2 : ((sortAssoc l2).map Prod.fst).Nodup :=
    (((sortAssoc_perm l2).map Prod.fst).nodup_iff).mpr
      ((hperm.map Prod.fst).nodup_iff.mp hnd)
  have hne1 : (sortAssoc l1).Pairwise (fun a b => a.1 ≠ b.1) :=
    (List.pairwise_map.mp hnd1).imp (fun h => h)
  have hne2 : (sortAssoc l2).Pairwise (fun a b => a.1 ≠ b.1) :=
    (List.pairwise_map.mp hnd2).imp (fun h => h)
  have hstrict1 : (sortAssoc l1).Pairwise (fun a b => a.1.data < b.1.data) := by
    have := (sortAssoc_sorted l1).and hne1
    exact this.imp (fun h => lt_of_le_of_ne h.1
      (fun hc => h.2 (string_data_inj _ _ hc)))
  have hstrict2 : (sortAssoc l2).Pairwise (fun a b => a.1.data < b.1.data) := by
    have := (sortAssoc_sorted l2).and hne2
    exact this.imp (fun h => lt_of_le_of_ne h.1
      (fun hc => h.2 (string_data_inj _ _ hc)))
  exact List.eq_of_perm_of_sorted hp hstrict1 hstrict2

/-! ### Canonicalization lemmas -/

lemma canonicalList_eq_map :
    ∀ xs : List MetaVal, canonicalList xs = xs.map canonical := by
  intro xs
  induction xs with
  | nil => rfl
  | cons x rest ih => rw [canonicalList, ih, List.map_cons]

lemma canonicalEntries_eq_map :
    ∀ es : List (String × MetaVal),
      canonicalEntries es = es.map (fun p => (p.1, canonical p.2)) := by
  intro es
  induction es with
  | nil => rfl
  | cons p rest ih =>
    obtain ⟨k, v⟩ := p
    rw [canonicalEntries, ih, List.map_cons]

lemma wfList_iff :
    ∀ xs : List MetaVal, wfList xs = true ↔ ∀ x ∈ xs, wfMeta x = true := by
  intro xs
  induction xs with
  | nil => simp [wfList]
  | cons x rest ih => simp [wfList, ih]

lemma wfEntries_iff :
    ∀ es : List (String × MetaVal),
      wfEntries es = true ↔ ∀ p ∈ es, wfMeta p.2 = true := by
  intro es
  induction es with
  | nil => simp [wfEntries]
  | cons p rest ih =>
    obtain ⟨k, v⟩ := p
    simp [wfEntries, ih]

lemma wf_dict_iff (es : List (String × MetaVal)) :
    wfMeta (.dict es) = true
      ↔ (es.map Prod.fst).Nodup ∧ ∀ p ∈ es, wfMeta p.2 = true := by
  rw [wfMeta, Bool.and_eq_true, wfEntries_iff, decide_eq_true_iff]

lemma wf_seq_iff (xs : List MetaVal) :
    wfMeta (.seq xs) = true ↔ ∀ x ∈ xs, wfMeta x = true := by
  rw [wfMeta, wfList_iff]

/-! ### Order equivalence: "differing only in dictionary key insertion
order", the relation quantified over by the spec's hashing properties -/

/-- Two metadata values differ only in the insertion order of mappings:
equal leaves, elementwise-related sequences, and mappings obtained by first
relating entries pointwise (same key, related value) and then permuting. -/
inductive OrdEquiv : MetaVal → MetaVal → Prop where
  | s (v : String) : OrdEquiv (.s v) (.s v)
  | i (v : Int) : OrdEquiv (.i v) (.i v)
  | seq {xs ys : List MetaVal} (hlen : xs.length = ys.length)
      (h : ∀ k (h1 : k < xs.length) (h2 : k < ys.length),
        OrdEquiv (xs.get ⟨k, h1⟩) (ys.get ⟨k, h2⟩)) :
      OrdEquiv (.seq xs) (.seq ys)
  | dict {es es' fs : List (String × MetaVal)}
      (hlen : es.length = es'.length)
      (hkey : ∀ k (h1 : k < es.length) (h2 : k < es'.length),
        (es.get ⟨k, h1⟩).1 = (es'.get ⟨k, h2⟩).1)
      (hval : ∀ k (h1 : k < es.length) (h2 : k < es'.length),
        OrdEquiv (es.get ⟨k, h1⟩).2 (es'.get ⟨k, h2⟩).2)
      (hperm : List.Perm es' fs) :
      OrdEquiv (.dict es) (.dict fs)

lemma ordEquiv_refl : ∀ a : MetaVal, OrdEquiv a a := by
  have H : ∀ (n : Nat) (a : MetaVal), sizeOf a ≤ n → OrdEquiv a a := by
    intro n
    induction n with
    | zero =>
      intro a ha
      cases a <;> simp at ha
    | succ m ih =>
      intro a ha
      match a with
      | .s v => exact OrdEquiv.s v
      | .i v => exact OrdEquiv.i v
      | .seq xs =>
        refine OrdEquiv.seq rfl ?_
        intro k h1 h2
        apply ih
        have hmem : xs.get ⟨k, h1⟩ ∈ xs := List.get_mem xs k h1
        have hlt := List.sizeOf_lt_of_mem hmem
        simp only [MetaVal.seq.sizeOf_spec] at ha
        omega
      | .dict es =>
        refine OrdEquiv.dict rfl (fun k h1 h2 => rfl) ?_ (List.Perm.refl es)
        intro k h1 h2
        apply ih
        have hmem : es.get ⟨k, h1⟩ ∈ es := List.get_mem es k h1
        have hlt := List.sizeOf_lt_of_mem hmem
        have hlt2 : sizeOf (es.get ⟨k, h1⟩).2 < sizeOf (es.get ⟨k, h1⟩) := by
          obtain ⟨k', v⟩ := es.get ⟨k, h1⟩
          simp only [Prod.mk.sizeOf_spec]
          omega
        simp only [MetaVal.dict.sizeOf_spec] at ha
        omega
  exact fun a => H (sizeOf a) a (le_refl _)

/-- Key lists of pointwise key-matched entry lists agree. -/
lemma map_fst_eq_of_pointwise {es es' : List (String × MetaVal)}
    (hlen : es.length = es'.length)
    (hkey : ∀ k (h1 : k < es.length) (h2 : k < es'.length),
      (es.get ⟨k, h1⟩).1 = (es'.get ⟨k, h2⟩).1) :
    es.map Prod.fst = es'.map Prod.fst := by
  apply List.ext_get (by simp [hlen])
  intro k h1 h2
  simp only [List.get_map]
  exact hkey k (by simpa using h1) (by simpa using h2)

/-- Order equivalence is sound for the canonical form: values differing only
in mapping insertion order (with duplicate-free keys) have the same
canonical form, hence the same hash. -/
lemma canonical_eq_of_ordEquiv :
    ∀ {a b : MetaVal}, OrdEquiv a b → wfMeta a = true →
      canonical a = canonical b := by
  intro a b h
  induction h with
  | s v => intro _; rfl
  | i v => intro _; rfl
  | seq hlen hk ih =>
    rename_i xs ys
    intro hwf
    simp only [canonical, canonicalList_eq_map]
    congr 1
    apply List.ext_get (by simp [hlen])
    intro k h1 h2
    simp only [List.get_map]
    exact ih k (by simpa using h1) (by simpa using h2)
      ((wf_seq_iff xs).mp hwf _ (List.get_mem xs k (by simpa using h1)))
  | dict hlen hkey hval hperm ih =>
    rename_i es es' fs
    intro hwf
    obtain ⟨hnd, hvals⟩ := (wf_dict_iff es).mp hwf
    simp only [canonical, canonicalEntries_eq_map]
    have hmapeq : es.map (fun p => (p.1, canonical p.2))
        = es'.map (fun p => (p.1, canonical p.2)) := by
      apply List.ext_get (by simp [hlen])
      intro k h1 h2
      simp only [List.get_map]
      have h1' : k < es.length := by simpa using h1
      have h2' : k < es'.length := by simpa using h2
      have hv := ih k h1' h2'
        (hvals _ (List.get_mem es k h1'))
      have hk := hkey k h1' h2'
      exact Prod.ext hk hv
    have hkeys : (es'.map (fun p => (p.1, canonical p.2))).map Prod.fst
        = es'.map Prod.fst := by
      rw [List.map_map]
      rfl
    have hnd' : ((es'.map (fun p => (p.1, canonical p.2))).map Prod.fst).Nodup := by
      rw [hkeys, ← map_fst_eq_of_pointwise hlen hkey]
      exact hnd
    exact congrArg MetaVal.dict
      (by rw [hmapeq]
          exact sortAssoc_eq_of_perm _ _
            (hperm.map (fun p => (p.1, canonical p.2))) hnd')

/-! ### Leaf differences: "differing in one leaf value, all else equal" -/

/-- Two metadata values that are identical except at one leaf (one string or
int differs, at the same position along a path of sequence positions and
mapping entries). -/
inductive LeafDiff : MetaVal → MetaVal → Prop where
  | s {a b : String} (h : a ≠ b) : LeafDiff (.s a) (.s b)
  | i {a b : Int} (h : a ≠ b) : LeafDiff (.i a) (.i b)
  | seq (A B : List MetaVal) {x y : MetaVal} (h : LeafDiff x y) :
      LeafDiff (.seq (A ++ x :: B)) (.seq (A ++ y :: B))
  | dict (A B : List (String × MetaVal)) (k : String) {x y : MetaVal}
      (h : LeafDiff x y) :
      LeafDiff (.dict (A ++ (k, x) :: B)) (.dict (A ++ (k, y) :: B))

/-- Zip two association lists with equal key sequences into one association
list of value pairs. -/
def zipVals {β γ : Type} :
    List (String × β) → List (String × γ) → List (String × (β × γ))
  | [], _ => []
  | _ :: _, [] => []
  | p :: l1, q :: l2 => (p.1, (p.2, q.2)) :: zipVals l1 l2

lemma insertAssoc_map_fst_eq {β γ : Type} (k : String) (b : β) (c : γ) :
    ∀ (l1 : List (String × β)) (l2 : List (String × γ)),
      l1.map Prod.fst = l2.map Prod.fst →
      (insertAssoc (k, b) l1).map Prod.fst
        = (insertAssoc (k, c) l2).map Prod.fst := by
  intro l1
  induction l1 with
  | nil =>
    intro l2 h
    cases l2 with
    | nil => rfl
    | cons q l2 => simp at h
  | cons p l1 ih =>
    intro l2 h
    cases l2 with
    | nil => simp at h
    | cons q l2 =>
      simp only [List.map_cons, List.cons.injEq] at h
      obtain ⟨hk, htl⟩ := h
      rw [insertAssoc, insertAssoc]
      by_cases hlt : k.data < p.1.data
      · rw [if_pos hlt, if_pos (by rw [← hk]; exact hlt)]
        simp [hk, htl]
      · rw [if_neg hlt, if_neg (by rw [← hk]; exact hlt)]
        simp only [List.map_cons, hk]
        rw [ih l2 htl]

lemma sortAssoc_map_fst_eq {β γ : Type} :
    ∀ (l1 : List (String × β)) (l2 : List (String × γ)),
      l1.map Prod.fst = l2.map Prod.fst →
      (sortAssoc l1).map Prod.fst = (sortAssoc l2).map Prod.fst := by
  intro l1
  induction l1 with
  | nil =>
    intro l2 h
    cases l2 with
    | nil => rfl
    | cons q l2 => simp at h
  | cons p l1 ih =>
    intro l2 h
    cases l2 with
    | nil => simp at h
    | cons q l2 =>
      simp only [List.map_cons, List.cons.injEq] at h
      obtain ⟨hk, htl⟩ := h
      rw [sortAssoc, sortAssoc]
      have := insertAssoc_map_fst_eq p.1 p.2 q.2 (sortAssoc l1) (sortAssoc l2)
        (ih l2 htl)
      rw [show ((p.1, p.2) : String × β) = p from rfl] at this
      rw [this, show ((p.1, q.2) : String × γ) = q from Prod.ext hk rfl]

lemma insertAssoc_zipVals {β γ : Type} (k : String) (b : β) (c : γ) :
    ∀ (l1 : List (String × β)) (l2 : List (String × γ)),
      l1.map Prod.fst = l2.map Prod.fst →
      insertAssoc (k, (b, c)) (zipVals l1 l2)
        = zipVals (insertAssoc (k, b) l1) (insertAssoc (k, c) l2) := by
  intro l1
  induction l1 with
  | nil =>
    intro l2 h
    cases l2 with
    | nil => rfl
    | cons q l2 => simp at h
  | cons p l1 ih =>
    intro l2 h
    cases l2 with
    | nil => simp at h
    | cons q l2 =>
      simp only [List.map_cons, List.cons.injEq] at h
      obtain ⟨hk, htl⟩ := h
      rw [zipVals, insertAssoc, insertAssoc, insertAssoc]
      by_cases hlt : k.data < p.1.data
      · rw [if_pos hlt, if_pos hlt, if_pos (by rw [← hk]; exact hlt)]
        rfl
      · rw [if_neg hlt, if_neg hlt, if_neg (by rw [← hk]; exact hlt)]
        rw [zipVals, ih l2 htl]

lemma sortAssoc_zipVals {β γ : Type} :
    ∀ (l1 : List (String × β)) (l2 : List (String × γ)),
      l1.map Prod.fst = l2.map Prod.fst →
      sortAssoc (zipVals l1 l2) = zipVals (sortAssoc l1) (sortAssoc l2) := by
  intro l1
  induction l1 with
  | nil =>
    intro l2 h
    cases l2 with
    | nil => rfl
    | cons q l2 => simp at h
  | cons p l1 ih =>
    intro l2 h
    cases l2 with
    | nil => simp at h
    | cons q l2 =>
      simp only [List.map_cons, List.cons.injEq] at h
      obtain ⟨hk, htl⟩ := h
      rw [zipVals, sortAssoc, sortAssoc, sortAssoc, ih l2 htl]
      have := insertAssoc_zipVals p.1 p.2 q.2 (sortAssoc l1) (sortAssoc l2)
        (sortAssoc_map_fst_eq l1 l2 htl)
      rw [show ((p.1, p.2) : String × β) = p from rfl] at this
      rw [this, show ((p.1, q.2) : String × γ) = q from Prod.ext hk rfl]

lemma mem_zipVals_self {β : Type} :
    ∀ (L : List (String × β)) (x : String × (β × β)),
      x ∈ zipVals L L → x.2.1 = x.2.2 := by
  intro L
  induction L with
  | nil => intro x hx; simp [zipVals] at hx
  | cons p L ih =>
    intro x hx
    rw [zipVals] at hx
    rcases List.mem_cons.mp hx with rfl | hx
    · rfl
    · exact ih x hx

lemma zipVals_append_cons_mem {β γ : Type} :
    ∀ (A1 : List (String × β)) (A2 : List (String × γ)),
      A1.map Prod.fst = A2.map Prod.fst →
      ∀ (k : String) (xb : β) (yc : γ) (B1 B2),
        (k, (xb, yc)) ∈ zipVals (A1 ++ (k, xb) :: B1) (A2 ++ (k, yc) :: B2) := by
  intro A1
  induction A1 with
  | nil =>
    intro A2 h k xb yc B1 B2
    cases A2 with
    | nil => simp [zipVals]
    | cons q A2 => simp at h
  | cons p A1 ih =>
    intro A2 h k xb yc B1 B2
    cases A2 with
    | nil => simp at h
    | cons q A2 =>
      simp only [List.map_cons, List.cons.injEq] at h
      rw [List.cons_append, List.cons_append, zipVals]
      exact List.mem_cons_of_mem _ (ih A2 h.2 k xb yc B1 B2)

/-- Two mapping entry lists equal except in one value with distinct
canonical forms have distinct canonical dictionaries. -/
lemma canonical_dict_ne_spliced (A B : List (String × MetaVal)) (k : String)
    (v1 v2 : MetaVal) (hne : canonical v1 ≠ canonical v2) :
    canonical (.dict (A ++ (k, v1) :: B)) ≠ canonical (.dict (A ++ (k, v2) :: B)) := by
  intro hc
  simp only [canonical, canonicalEntries_eq_map, List.map_append,
    List.map_cons, MetaVal.dict.injEq] at hc
  have hkeys : (A.map (fun p => (p.1, canonical p.2))
        ++ (k, canonical v1) :: B.map (fun p => (p.1, canonical p.2))).map Prod.fst
      = (A.map (fun p => (p.1, canonical p.2))
        ++ (k, canonical v2) :: B.map (fun p => (p.1, canonical p.2))).map Prod.fst := by
    simp [List.map_append]
  have hm : (k, (canonical v1, canonical v2))
      ∈ zipVals (A.map (fun p => (p.1, canonical p.2))
            ++ (k, canonical v1) :: B.map (fun p => (p.1, canonical p.2)))
          (A.map (fun p => (p.1, canonical p.2))
            ++ (k, canonical v2) :: B.map (fun p => (p.1, canonical p.2))) :=
    zipVals_append_cons_mem _ _ rfl k _ _ _ _
  have hm2 := ((sortAssoc_perm _).mem_iff).mpr hm
  rw [sortAssoc_zipVals _ _ hkeys, hc] at hm2
  exact hne (mem_zipVals_self _ _ hm2)

/-- A single differing leaf always changes the canonical form (hence the
hash), whatever the surrounding structure. -/
lemma canonical_ne_of_leafdiff :
    ∀ {a b : MetaVal}, LeafDiff a b → canonical a ≠ canonical b := by
  intro a b h
  induction h with
  | s h =>
    intro hc
    simp only [canonical, MetaVal.s.injEq] at hc
    exact h hc
  | i h =>
    intro hc
    simp only [canonical, MetaVal.i.injEq] at hc
    exact h hc
  | seq A B h ih =>
    intro hc
    simp only [canonical, canonicalList_eq_map, List.map_append,
      List.map_cons, MetaVal.seq.injEq] at hc
    have := List.append_cancel_left hc
    rw [List.cons.injEq] at this
    exact ih this.1
  | dict A B k h ih =>
    exact canonical_dict_ne_spliced A B k _ _ ih

/-! ### `process_meta` support lemmas -/

lemma lookupMeta_append_cons (k : String) :
    ∀ (A : List (String × MetaVal)) (v : MetaVal) (B : List (String × MetaVal)),
      k ∉ A.map Prod.fst → lookupMeta k (A ++ (k, v) :: B) = some v := by
  intro A
  induction A with
  | nil => intro v B _; simp [lookupMeta]
  | cons p A ih =>
    intro v B h
    simp only [List.map_cons, List.mem_cons, not_or] at h
    rw [List.cons_append, lookupMeta, if_neg (Ne.symm h.1)]
    exact ih v B h.2

lemma lookupMeta_splice_ne (k k0 : String) (hne : k0 ≠ k) :
    ∀ (A : List (String × MetaVal)) (v : MetaVal) (B : List (String × MetaVal)),
      lookupMeta k (A ++ (k0, v) :: B) = lookupMeta k (A ++ B) := by
  intro A
  induction A with
  | nil =>
    intro v B
    simp only [List.nil_append]
    rw [lookupMeta, if_neg hne]
  | cons p A ih =>
    intro v B
    rw [List.cons_append, lookupMeta, List.cons_append, lookupMeta, ih v B]

lemma eraseKeyMeta_eq_self (k : String) (es : List (String × MetaVal))
    (h : k ∉ es.map Prod.fst) : eraseKeyMeta k es = es := by
  rw [eraseKeyMeta, List.filter_eq_self]
  intro p hp
  simp only [decide_eq_true_iff]
  intro hc
  exact h (List.mem_map.mpr ⟨p, hp, hc⟩)

lemma eraseKeyMeta_append (k : String) (A B : List (String × MetaVal)) :
    eraseKeyMeta k (A ++ B) = eraseKeyMeta k A ++ eraseKeyMeta k B := by
  simp [eraseKeyMeta, List.filter_append]

lemma eraseKeyMeta_cons_ne (k k0 : String) (hne : k0 ≠ k) (v : MetaVal)
    (es : List (String × MetaVal)) :
    eraseKeyMeta k ((k0, v) :: es) = (k0, v) :: eraseKeyMeta k es := by
  simp [eraseKeyMeta, List.filter_cons, hne]

lemma eraseKeyMeta_cons_self (k : String) (v : MetaVal)
    (es : List (String × MetaVal)) :
    eraseKeyMeta k ((k, v) :: es) = eraseKeyMeta k es := by
  simp [eraseKeyMeta, List.filter_cons]

lemma keys_eraseKeyMeta_subset (k a : String) (es : List (String × MetaVal)) :
    a ∈ (eraseKeyMeta k es).map Prod.fst → a ∈ es.map Prod.fst := by
  intro h
  obtain ⟨p, hp, rfl⟩ := List.mem_map.mp h
  exact List.mem_map.mpr ⟨p, List.mem_of_mem_filter hp, rfl⟩

lemma setKeyMeta_not_mem (es : List (String × MetaVal)) (k : String)
    (v : MetaVal) (h : k ∉ es.map Prod.fst) :
    setKeyMeta es k v = es ++ [(k, v)] := by
  rw [setKeyMeta, if_neg h]

lemma map_fst_eraseKeyMeta (k : String) (es : List (String × MetaVal)) :
    (eraseKeyMeta k es).map Prod.fst
      = (es.map Prod.fst).filter (fun a => a ≠ k) := by
  induction es with
  | nil => rfl
  | cons p es ih =>
    by_cases hp : p.1 = k
    · rw [show p = (k, p.2) from Prod.ext hp rfl, eraseKeyMeta_cons_self,
        List.map_cons, List.filter_cons]
      simp [ih]
    · rw [eraseKeyMeta_cons_ne k p.1 hp p.2, List.map_cons, List.map_cons,
        List.filter_cons]
      simp [hp, ih]

/-- The map of string leaves is injective. -/
lemma map_s_injective :
    ∀ (ks1 ks2 : List String),
      ks1.map (fun s => MetaVal.s s) = ks2.map (fun s => MetaVal.s s) →
      ks1 = ks2 := by
  intro ks1
  induction ks1 with
  | nil =>
    intro ks2 h
    cases ks2 with
    | nil => rfl
    | cons b ks2 => simp at h
  | cons a ks1 ih =>
    intro ks2 h
    cases ks2 with
    | nil => simp at h
    | cons b ks2 =>
      simp only [List.map_cons, List.cons.injEq, MetaVal.s.injEq] at h
      rw [h.1, ih ks2 h.2]

lemma canonical_seq_strs (ks : List String) :
    canonical (.seq (ks.map (fun s => MetaVal.s s)))
      = .seq (ks.map (fun s => MetaVal.s s)) := by
  simp only [canonical, canonicalList_eq_map, List.map_map]
  congr 1

lemma wf_seq_strs (ks : List String) :
    wfMeta (.seq (ks.map (fun s => MetaVal.s s))) = true := by
  rw [wf_seq_iff]
  intro x hx
  obtain ⟨a, _, rfl⟩ := List.mem_map.mp hx
  rfl

/-- The ordered key names of the `element` sub-mapping. -/
def elementKeyList (meta : List (String × MetaVal)) : List String :=
  match lookupMeta "element" meta with
  | some (.dict ees) => ees.map Prod.fst
  | _ => []

/-- Inversion of a successful `process_meta` on metadata without a
preexisting `_element_keys` entry. -/
lemma process_meta_ok_inv {meta : List (String × MetaVal)}
    {h : MetaVal} {p : List (String × MetaVal)} {e : MetaVal}
    (hok : process_meta meta = .ok (h, p, e))
    (hek : "_element_keys" ∉ meta.map Prod.fst) :
    ∃ ees, lookupMeta "element" meta = some (.dict ees)
      ∧ p = eraseKeyMeta "element" meta
          ++ [("_element_keys", .seq (ees.map (fun q => MetaVal.s q.1)))]
      ∧ h = canonical (.dict p) ∧ e = .dict ees := by
  rw [process_meta] at hok
  cases hl : lookupMeta "element" meta with
  | none => rw [hl] at hok; simp at hok
  | some val =>
    rw [hl] at hok
    match val with
    | .s v => simp at hok
    | .i v => simp at hok
    | .seq xs => simp at hok
    | .dict ees =>
      by_cases hd : "dependencies" ∈ meta.map Prod.fst
      · simp only [if_pos hd, Except.ok.injEq, Prod.mk.injEq] at hok
        have hset : setKeyMeta (eraseKeyMeta "element" meta) "_element_keys"
            (.seq (ees.map (fun q => MetaVal.s q.1)))
            = eraseKeyMeta "element" meta
              ++ [("_element_keys", .seq (ees.map (fun q => MetaVal.s q.1)))] :=
          setKeyMeta_not_mem _ _ _
            (fun hc => hek (keys_eraseKeyMeta_subset _ _ _ hc))
        refine ⟨ees, rfl, ?_, ?_, ?_⟩
        · rw [← hok.2.1, hset]
        · rw [← hok.1, ← hok.2.1, hset]
        · exact hok.2.2.symm
      · simp only [if_neg hd] at hok
        simp at hok

lemma eraseKeyMeta_eq_filter (k : String) (es : List (String × MetaVal)) :
    eraseKeyMeta k es = es.filter (fun p => decide (p.1 ≠ k)) := rfl

/-- Pointwise key/value-matched entry lists stay matched after filtering on
the key. -/
lemma forall₂_filter_keys {R : MetaVal → MetaVal → Prop} (f : String → Bool)
    {es es' : List (String × MetaVal)}
    (h : List.Forall₂ (fun p q => p.1 = q.1 ∧ R p.2 q.2) es es') :
    List.Forall₂ (fun p q => p.1 = q.1 ∧ R p.2 q.2)
      (es.filter (fun p => f p.1)) (es'.filter (fun p => f p.1)) := by
  induction h with
  | nil => exact List.Forall₂.nil
  | cons hpq htl ih =>
    rename_i p q es es'
    rw [List.filter_cons, List.filter_cons, ← hpq.1]
    by_cases hf : f p.1
    · rw [if_pos hf, if_pos hf]
      exact List.Forall₂.cons hpq ih
    · rw [if_neg hf, if_neg hf]
      exact ih

lemma forall₂_keys_eq {R : MetaVal → MetaVal → Prop}
    {es es' : List (String × MetaVal)}
    (h : List.Forall₂ (fun p q => p.1 = q.1 ∧ R p.2 q.2) es es') :
    es.map Prod.fst = es'.map Prod.fst := by
  induction h with
  | nil => rfl
  | cons hpq htl ih => simp [hpq.1, ih]

/-- Replacing one mapping value by an order-equivalent one gives an
order-equivalent mapping. -/
lemma ordEquiv_entry_cons (k : String) (v1 v2 : MetaVal)
    (rest : List (String × MetaVal)) (h : OrdEquiv v1 v2) :
    OrdEquiv (.dict ((k, v1) :: rest)) (.dict ((k, v2) :: rest)) := by
  refine @OrdEquiv.dict ((k, v1) :: rest) ((k, v2) :: rest) ((k, v2) :: rest)
    rfl ?_ ?_ (List.Perm.refl _)
  · intro j h1 h2
    match j with
    | 0 => rfl
    | j + 1 => rfl
  · intro j h1 h2
    match j with
    | 0 => exact h
    | j + 1 => exact ordEquiv_refl _

/-- Permuting a mapping's entries gives an order-equivalent mapping. -/
lemma ordEquiv_dict_of_perm (es fs : List (String × MetaVal))
    (h : List.Perm es fs) : OrdEquiv (.dict es) (.dict fs) :=
  OrdEquiv.dict rfl (fun _ _ _ => rfl) (fun _ _ _ => ordEquiv_refl _) h

/-! ## Claim C6 -/

/-- C6 counterexample: the claim says metadata differing only in dictionary
key insertion order — including insertion order inside nested mappings —
hash identically. But the `element` sub-mapping's insertion order is folded
into the hash through the ordered `_element_keys` list: these two metadata
mappings differ only in the insertion order of the `element` sub-mapping
(witnessed by the `OrdEquiv` conjunct), yet their hashes differ. -/
theorem c6_element_order_counterexample :
    OrdEquiv
      (.dict [("element", .dict [("a", .s "x"), ("b", .s "y")]),
              ("A", .i 1), ("dependencies", .seq [.s "numpy"])])
      (.dict [("element", .dict [("b", .s "y"), ("a", .s "x")]),
              ("A", .i 1), ("dependencies", .seq [.s "numpy"])])
    ∧ ∃ h1 p1 e1 h2 p2 e2,
      process_meta [("element", .dict [("a", .s "x"), ("b", .s "y")]),
              ("A", .i 1), ("dependencies", .seq [.s "numpy"])]
        = Except.ok (h1, p1, e1)
      ∧ process_meta [("element", .dict [("b", .s "y"), ("a", .s "x")]),
              ("A", .i 1), ("dependencies", .seq [.s "numpy"])]
        = Except.ok (h2, p2, e2)
      ∧ h1 ≠ h2 := by
  constructor
  · exact ordEquiv_entry_cons "element" _ _ _
      (ordEquiv_dict_of_perm _ _ (List.Perm.swap _ _ _))
  · refine ⟨canonical (.dict [("A", .i 1), ("dependencies", .seq [.s "numpy"]),
        ("_element_keys", .seq [.s "a", .s "b"])]),
      [("A", .i 1), ("dependencies", .seq [.s "numpy"]),
        ("_element_keys", .seq [.s "a", .s "b"])],
      .dict [("a", .s "x"), ("b", .s "y")],
      canonical (.dict [("A", .i 1), ("dependencies", .seq [.s "numpy"]),
        ("_element_keys", .seq [.s "b", .s "a"])]),
      [("A", .i 1), ("dependencies", .seq [.s "numpy"]),
        ("_element_keys", .seq [.s "b", .s "a"])],
      .dict [("b", .s "y"), ("a", .s "x")], ?_, ?_, ?_⟩
    · simp [process_meta, lookupMeta, eraseKeyMeta, setKeyMeta]
    · simp [process_meta, lookupMeta, eraseKeyMeta, setKeyMeta]
    · exact canonical_dict_ne_spliced
        [("A", .i 1), ("dependencies", .seq [.s "numpy"])] [] "_element_keys"
        (.seq [.s "a", .s "b"]) (.seq [.s "b", .s "a"])
        (by
          rw [show (MetaVal.seq [.s "a", .s "b"])
              = .seq (["a", "b"].map (fun s => MetaVal.s s)) from rfl,
            show (MetaVal.seq [.s "b", .s "a"])
              = .seq (["b", "a"].map (fun s => MetaVal.s s)) from rfl,
            canonical_seq_strs, canonical_seq_strs]
          simp)

/-- C6 amended: (a) two well-formed metadata mappings (with `element` and
`dependencies` keys, no reserved `_element_keys` key) that differ only in
dictionary key insertion order — including insertion order inside nested
mappings, EXCEPT inside the `element` sub-mapping, whose ordered key list is
folded into the hash — receive the same hash from `process_meta`; and (b)
two such mappings that are identical except in one leaf value outside the
`element` entry (and outside the reserved `_element_keys` name) receive
different hashes. -/
theorem c6_meta_hash_amended :
    (∀ (m1 m2 : List (String × MetaVal)) (h1 h2 : MetaVal)
        (p1 p2 : List (String × MetaVal)) (e1 e2 : MetaVal),
      process_meta m1 = Except.ok (h1, p1, e1) →
      process_meta m2 = Except.ok (h2, p2, e2) →
      wfMeta (.dict m1) = true →
      "_element_keys" ∉ m1.map Prod.fst →
      OrdEquiv (.dict m1) (.dict m2) →
      elementKeyList m1 = elementKeyList m2 →
      h1 = h2)
    ∧ (∀ (pre post : List (String × MetaVal)) (k : String) (v1 v2 : MetaVal)
        (h1 h2 : MetaVal) (p1 p2 : List (String × MetaVal)) (e1 e2 : MetaVal),
      process_meta (pre ++ (k, v1) :: post) = Except.ok (h1, p1, e1) →
      process_meta (pre ++ (k, v2) :: post) = Except.ok (h2, p2, e2) →
      k ≠ "element" →
      "_element_keys" ∉ (pre ++ (k, v1) :: post).map Prod.fst →
      LeafDiff v1 v2 →
      h1 ≠ h2) := by
  constructor
  · intro m1 m2 h1 h2 p1 p2 e1 e2 hm1 hm2 hwf hek1 heq helem
    cases heq with
    | dict hlen hkey hval hperm =>
      rename_i es'
      have hf : List.Forall₂ (fun p q => p.1 = q.1 ∧ OrdEquiv p.2 q.2) m1 es' :=
        List.forall₂_iff_get.mpr
          ⟨hlen, fun i hi1 hi2 => ⟨hkey i hi1 hi2, hval i hi1 hi2⟩⟩
      have hkeysm : m1.map Prod.fst = es'.map Prod.fst := forall₂_keys_eq hf
      have hek2 : "_element_keys" ∉ m2.map Prod.fst := by
        intro hc
        exact hek1 (by
          rw [hkeysm]
          exact ((hperm.map Prod.fst).mem_iff).mpr hc)
      obtain ⟨ees1, hl1, hp1, hh1, he1⟩ := process_meta_ok_inv hm1 hek1
      obtain ⟨ees2, hl2, hp2, hh2, he2⟩ := process_meta_ok_inv hm2 hek2
      have hkl1 : elementKeyList m1 = ees1.map Prod.fst := by
        rw [elementKeyList, hl1]
      have hkl2 : elementKeyList m2 = ees2.map Prod.fst := by
        rw [elementKeyList, hl2]
      have hkeys12 : ees1.map Prod.fst = ees2.map Prod.fst := by
        rw [← hkl1, ← hkl2, helem]
      have hE : ees1.map (fun q => MetaVal.s q.1)
          = ees2.map (fun q => MetaVal.s q.1) := by
        have hlen12 : ees1.length = ees2.length := by
          have := congrArg List.length hkeys12
          simpa using this
        apply List.ext_get (by simp [hlen12])
        intro i ha hb
        simp only [List.get_map, MetaVal.s.injEq]
        have := congrArg (fun l => l.get? i) hkeys12
        simp only [List.get?_map] at this
        have ha' : i < ees1.length := by simpa using ha
        have hb' : i < ees2.length := by simpa using hb
        rw [List.get?_eq_get ha', List.get?_eq_get hb'] at this
        simpa using this
      have hfp : List.Forall₂ (fun p q => p.1 = q.1 ∧ OrdEquiv p.2 q.2)
          p1 (eraseKeyMeta "element" es'
            ++ [("_element_keys", .seq (ees1.map (fun q => MetaVal.s q.1)))]) := by
        rw [hp1, eraseKeyMeta_eq_filter, eraseKeyMeta_eq_filter]
        exact List.rel_append
          (forall₂_filter_keys (fun a => decide (a ≠ "element")) hf)
          (List.Forall₂.cons ⟨rfl, ordEquiv_refl _⟩ List.Forall₂.nil)
      have hpm : List.Perm
          (eraseKeyMeta "element" es'
            ++ [("_element_keys", .seq (ees1.map (fun q => MetaVal.s q.1)))])
          p2 := by
        rw [hp2, ← hE, eraseKeyMeta_eq_filter, eraseKeyMeta_eq_filter]
        exact (hperm.filter _).append_right _
      have hoe : OrdEquiv (.dict p1) (.dict p2) := by
        obtain ⟨hl', hpt⟩ := List.forall₂_iff_get.mp hfp
        exact OrdEquiv.dict hl' (fun i h1 h2 => (hpt i h1 h2).1)
          (fun i h1 h2 => (hpt i h1 h2).2) hpm
      have hwfp : wfMeta (.dict p1) = true := by
        rw [wf_dict_iff]
        obtain ⟨hnd, hvals⟩ := (wf_dict_iff m1).mp hwf
        constructor
        · rw [hp1]
          rw [List.map_append, map_fst_eraseKeyMeta]
          simp only [List.map_cons, List.map_nil]
          rw [List.nodup_append]
          refine ⟨hnd.filter _, List.nodup_singleton _, ?_⟩
          intro a ha
          have ha2 := List.mem_of_mem_filter ha
          simp only [List.mem_singleton]
          intro hc
          rw [hc] at ha2
          exact hek1 ha2
        · intro q hq
          rw [hp1] at hq
          rcases List.mem_append.mp hq with hq | hq
          · exact hvals q (List.mem_of_mem_filter hq)
          · rw [List.mem_singleton] at hq
            subst hq
            show wfMeta (.seq (ees1.map (fun q => MetaVal.s q.1))) = true
            have hmm : ees1.map (fun q => MetaVal.s q.1)
                = (ees1.map Prod.fst).map (fun s => MetaVal.s s) := by
              rw [List.map_map]
              rfl
            rw [hmm]
            exact wf_seq_strs _
      rw [hh1, hh2]
      exact canonical_eq_of_ordEquiv hoe hwfp
  · intro pre post k v1 v2 h1 h2 p1 p2 e1 e2 hm1 hm2 hkel hek1 hld
    have hkeys_eq : (pre ++ (k, v1) :: post).map Prod.fst
        = (pre ++ (k, v2) :: post).map Prod.fst := by
      simp
    have hek2 : "_element_keys" ∉ (pre ++ (k, v2) :: post).map Prod.fst := by
      rw [← hkeys_eq]
      exact hek1
    obtain ⟨ees1, hl1, hp1, hh1, he1⟩ := process_meta_ok_inv hm1 hek1
    obtain ⟨ees2, hl2, hp2, hh2, he2⟩ := process_meta_ok_inv hm2 hek2
    have hees : ees1 = ees2 := by
      have e1eq := lookupMeta_splice_ne "element" k hkel pre v1 post
      have e2eq := lookupMeta_splice_ne "element" k hkel pre v2 post
      rw [hl1] at e1eq
      rw [hl2] at e2eq
      have := e1eq.trans e2eq.symm
      simpa using this
    have herase1 : eraseKeyMeta "element" (pre ++ (k, v1) :: post)
        = eraseKeyMeta "element" pre ++ (k, v1) :: eraseKeyMeta "element" post := by
      rw [eraseKeyMeta_append, eraseKeyMeta_cons_ne _ _ hkel]
    have herase2 : eraseKeyMeta "element" (pre ++ (k, v2) :: post)
        = eraseKeyMeta "element" pre ++ (k, v2) :: eraseKeyMeta "element" post := by
      rw [eraseKeyMeta_append, eraseKeyMeta_cons_ne _ _ hkel]
    rw [hh1, hh2, hp1, hp2, herase1, herase2, hees]
    rw [List.append_assoc, List.append_assoc, List.cons_append, List.cons_append]
    exact canonical_dict_ne_spliced _ _ k v1 v2 (canonical_ne_of_leafdiff hld)

/-! ## Claim C9 -/

/-- C9: `process_meta` folds the ordered key names of the `element`
sub-mapping into the processed metadata as `_element_keys`, so two metadata
mappings identical in every non-element entry but whose element sub-mappings
have different key-name lists produce different hashes — even though the
element values themselves are excluded from the hash. -/
theorem c9_element_keys_fold
    (pre post ees1 ees2 : List (String × MetaVal))
    (h1 h2 : MetaVal) (p1 p2 : List (String × MetaVal)) (e1 e2 : MetaVal)
    (hm1 : process_meta (pre ++ ("element", .dict ees1) :: post)
      = Except.ok (h1, p1, e1))
    (hm2 : process_meta (pre ++ ("element", .dict ees2) :: post)
      = Except.ok (h2, p2, e2))
    (hpre : "element" ∉ pre.map Prod.fst)
    (hpost : "element" ∉ post.map Prod.fst)
    (hek : "_element_keys" ∉ (pre ++ ("element", .dict ees1) :: post).map Prod.fst)
    (hkeys : ees1.map Prod.fst ≠ ees2.map Prod.fst) :
    h1 ≠ h2
    ∧ lookupMeta "_element_keys" p1
      = some (.seq (ees1.map (fun q => MetaVal.s q.1))) := by
  have hek2 : "_element_keys"
      ∉ (pre ++ ("element", .dict ees2) :: post).map Prod.fst := by
    simp only [List.map_append, List.map_cons, List.mem_append,
      List.mem_cons] at hek ⊢
    exact hek
  obtain ⟨ees1', hl1, hp1, hh1, he1⟩ := process_meta_ok_inv hm1 hek
  obtain ⟨ees2', hl2, hp2, hh2, he2⟩ := process_meta_ok_inv hm2 hek2
  have hl1' := lookupMeta_append_cons "element" pre (.dict ees1) post hpre
  have hl2' := lookupMeta_append_cons "element" pre (.dict ees2) post hpre
  have hees1 : ees1' = ees1 := by
    have := hl1.symm.trans hl1'
    simpa using this
  have hees2 : ees2' = ees2 := by
    have := hl2.symm.trans hl2'
    simpa using this
  rw [hees1] at hp1
  rw [hees2] at hp2
  have herase : eraseKeyMeta "element" (pre ++ ("element", .dict ees1) :: post)
      = pre ++ post := by
    rw [eraseKeyMeta_append, eraseKeyMeta_cons_self,
      eraseKeyMeta_eq_self _ _ hpre, eraseKeyMeta_eq_self _ _ hpost]
  have herase2 : eraseKeyMeta "element" (pre ++ ("element", .dict ees2) :: post)
      = pre ++ post := by
    rw [eraseKeyMeta_append, eraseKeyMeta_cons_self,
      eraseKeyMeta_eq_self _ _ hpre, eraseKeyMeta_eq_self _ _ hpost]
  have hekpp : "_element_keys" ∉ (pre ++ post).map Prod.fst := by
    simp only [List.map_append, List.map_cons, List.mem_append,
      List.mem_cons] at hek ⊢
    intro hc
    rcases hc with hc | hc
    · exact hek (Or.inl hc)
    · exact hek (Or.inr (Or.inr hc))
  have hmm1 : ees1.map (fun q => MetaVal.s q.1)
      = (ees1.map Prod.fst).map (fun s => MetaVal.s s) := by
    rw [List.map_map]
    rfl
  have hmm2 : ees2.map (fun q => MetaVal.s q.1)
      = (ees2.map Prod.fst).map (fun s => MetaVal.s s) := by
    rw [List.map_map]
    rfl
  constructor
  · rw [hh1, hh2, hp1, hp2, herase, herase2]
    apply canonical_dict_ne_spliced (pre ++ post) [] "_element_keys"
    intro hc
    rw [hmm1, hmm2, canonical_seq_strs, canonical_seq_strs,
      MetaVal.seq.injEq] at hc
    exact hkeys (map_s_injective _ _ hc)
  · rw [hp1, herase]
    exact lookupMeta_append_cons "_element_keys" (pre ++ post) _ [] hekpp

/-- Witness for C6 amended at concrete inputs: part (a) on two top-level
permutations of the same metadata, part (b) on two metadata differing in the
leaf value of the `A` entry. -/
theorem c6_meta_hash_amended_witness :
    (process_meta [("A", .i 1), ("element", .dict [("foo", .s "bar")]),
        ("dependencies", .seq [.s "numpy"])]
      = Except.ok
          (canonical (.dict [("A", .i 1), ("dependencies", .seq [.s "numpy"]),
            ("_element_keys", .seq [.s "foo"])]),
           [("A", .i 1), ("dependencies", .seq [.s "numpy"]),
            ("_element_keys", .seq [.s "foo"])],
           .dict [("foo", .s "bar")])
      ∧ process_meta [("dependencies", .seq [.s "numpy"]), ("A", .i 1),
          ("element", .dict [("foo", .s "bar")])]
        = Except.ok
            (canonical (.dict [("dependencies", .seq [.s "numpy"]),
              ("A", .i 1), ("_element_keys", .seq [.s "foo"])]),
             [("dependencies", .seq [.s "numpy"]), ("A", .i 1),
              ("_element_keys", .seq [.s "foo"])],
             .dict [("foo", .s "bar")])
      ∧ canonical (.dict [("A", .i 1), ("dependencies", .seq [.s "numpy"]),
            ("_element_keys", .seq [.s "foo"])])
        = canonical (.dict [("dependencies", .seq [.s "numpy"]),
            ("A", .i 1), ("_element_keys", .seq [.s "foo"])]))
    ∧ canonical (.dict [("A", .i 1), ("dependencies", .seq [.s "numpy"]),
          ("_element_keys", .seq [.s "foo"])])
      ≠ canonical (.dict [("A", .i 2), ("dependencies", .seq [.s "numpy"]),
          ("_element_keys", .seq [.s "foo"])]) := by
  have hma : process_meta [("A", .i 1), ("element", .dict [("foo", .s "bar")]),
      ("dependencies", .seq [.s "numpy"])]
    = Except.ok
        (canonical (.dict [("A", .i 1), ("dependencies", .seq [.s "numpy"]),
          ("_element_keys", .seq [.s "foo"])]),
         [("A", .i 1), ("dependencies", .seq [.s "numpy"]),
          ("_element_keys", .seq [.s "foo"])],
         .dict [("foo", .s "bar")]) := by
    simp [process_meta, lookupMeta, eraseKeyMeta, setKeyMeta]
  have hmb : process_meta [("dependencies", .seq [.s "numpy"]), ("A", .i 1),
      ("element", .dict [("foo", .s "bar")])]
    = Except.ok
        (canonical (.dict [("dependencies", .seq [.s "numpy"]),
          ("A", .i 1), ("_element_keys", .seq [.s "foo"])]),
         [("dependencies", .seq [.s "numpy"]), ("A", .i 1),
          ("_element_keys", .seq [.s "foo"])],
         .dict [("foo", .s "bar")]) := by
    simp [process_meta, lookupMeta, eraseKeyMeta, setKeyMeta]
  have hmc : process_meta
      ([("element", .dict [("foo", .s "bar")])] ++ ("A", .i 1)
        :: [("dependencies", .seq [.s "numpy"])])
    = Except.ok
        (canonical (.dict [("A", .i 1), ("dependencies", .seq [.s "numpy"]),
          ("_element_keys", .seq [.s "foo"])]),
         [("A", .i 1), ("dependencies", .seq [.s "numpy"]),
          ("_element_keys", .seq [.s "foo"])],
         .dict [("foo", .s "bar")]) := by
    simp [process_meta, lookupMeta, eraseKeyMeta, setKeyMeta]
  have hmd : process_meta
      ([("element", .dict [("foo", .s "bar")])] ++ ("A", .i 2)
        :: [("dependencies", .seq [.s "numpy"])])
    = Except.ok
        (canonical (.dict [("A", .i 2), ("dependencies", .seq [.s "numpy"]),
          ("_element_keys", .seq [.s "foo"])]),
         [("A", .i 2), ("dependencies", .seq [.s "numpy"]),
          ("_element_keys", .seq [.s "foo"])],
         .dict [("foo", .s "bar")]) := by
    simp [process_meta, lookupMeta, eraseKeyMeta, setKeyMeta]
  refine ⟨⟨hma, hmb, ?_⟩, ?_⟩
  · exact c6_meta_hash_amended.1 _ _ _ _ _ _ _ _ hma hmb
      (by rw [wf_dict_iff]
          refine ⟨by decide, ?_⟩
          intro p hp
          rcases List.mem_cons.mp hp with rfl | hp
          · rfl
          · rcases List.mem_cons.mp hp with rfl | hp
            · simp [wfMeta, wfEntries]
            · rcases List.mem_cons.mp hp with rfl | hp
              · simp [wfMeta, wfList]
              · simp at hp)
      (by decide)
      (ordEquiv_dict_of_perm _ _
        ((List.Perm.cons _ (List.Perm.swap _ _ _)).trans
          (List.Perm.swap _ _ _)))
      (by simp [elementKeyList, lookupMeta])
  · exact c6_meta_hash_amended.2
      [("element", .dict [("foo", .s "bar")])]
      [("dependencies", .seq [.s "numpy"])]
      "A" (.i 1) (.i 2) _ _ _ _ _ _ hmc hmd
      (by decide) (by decide) (LeafDiff.i (by decide))

/-- Witness for C9 at concrete inputs: element `{foo: bar}` versus
`{bar: baz}` with all non-element entries equal. -/
theorem c9_element_keys_fold_witness :
    process_meta ([] ++ ("element", .dict [("foo", .s "bar")])
        :: [("A", .i 1), ("dependencies", .seq [.s "numpy"])])
      = Except.ok
          (canonical (.dict [("A", .i 1), ("dependencies", .seq [.s "numpy"]),
            ("_element_keys", .seq [.s "foo"])]),
           [("A", .i 1), ("dependencies", .seq [.s "numpy"]),
            ("_element_keys", .seq [.s "foo"])],
           .dict [("foo", .s "bar")])
    ∧ process_meta ([] ++ ("element", .dict [("bar", .s "baz")])
        :: [("A", .i 1), ("dependencies", .seq [.s "numpy"])])
      = Except.ok
          (canonical (.dict [("A", .i 1), ("dependencies", .seq [.s "numpy"]),
            ("_element_keys", .seq [.s "bar"])]),
           [("A", .i 1), ("dependencies", .seq [.s "numpy"]),
            ("_element_keys", .seq [.s "bar"])],
           .dict [("bar", .s "baz")])
    ∧ canonical (.dict [("A", .i 1), ("dependencies", .seq [.s "numpy"]),
          ("_element_keys", .seq [.s "foo"])])
      ≠ canonical (.dict [("A", .i 1), ("dependencies", .seq [.s "numpy"]),
          ("_element_keys", .seq [.s "bar"])])
    ∧ lookupMeta "_element_keys"
        [("A", .i 1), ("dependencies", .seq [.s "numpy"]),
          ("_element_keys", .seq [.s "foo"])]
      = some (.seq [.s "foo"]) := by
  have hm1 : process_meta ([] ++ ("element", .dict [("foo", .s "bar")])
      :: [("A", .i 1), ("dependencies", .seq [.s "numpy"])])
    = Except.ok
        (canonical (.dict [("A", .i 1), ("dependencies", .seq [.s "numpy"]),
          ("_element_keys", .seq [.s "foo"])]),
         [("A", .i 1), ("dependencies", .seq [.s "numpy"]),
          ("_element_keys", .seq [.s "foo"])],
         .dict [("foo", .s "bar")]) := by
    simp [process_meta, lookupMeta, eraseKeyMeta, setKeyMeta]
  have hm2 : process_meta ([] ++ ("element", .dict [("bar", .s "baz")])
      :: [("A", .i 1), ("dependencies", .seq [.s "numpy"])])
    = Except.ok
        (canonical (.dict [("A", .i 1), ("dependencies", .seq [.s "numpy"]),
          ("_element_keys", .seq [.s "bar"])]),
         [("A", .i 1), ("dependencies", .seq [.s "numpy"]),
          ("_element_keys", .seq [.s "bar"])],
         .dict [("bar", .s "baz")]) := by
    simp [process_meta, lookupMeta, eraseKeyMeta, setKeyMeta]
  have hc := c9_element_keys_fold []
    [("A", .i 1), ("dependencies", .seq [.s "numpy"])]
    [("foo", .s "bar")] [("bar", .s "baz")] _ _ _ _ _ _ hm1 hm2
    (by decide) (by decide) (by decide) (by decide)
  exact ⟨hm1, hm2, hc.1, hc.2⟩
